import Mathlib

/-!
Verification of the osgEarth filesystem cache driver
(`src/osgEarthDrivers/cache_filesystem/FileSystemCache.cpp`).

We build a shallow embedding of `FileSystemCacheBin`: its validity state
machine (`binValidForReading` / `binValidForWriting`), the sequential
read/write/remove/status operations over an explicit disk state, the
write task (`WriteOperation::operator()`), the recursive directory purge
(`purgeDirectory` / `clear`), and a small interleaving semantics for the
per-key file gate.  External collaborators (the osgDB reader/writer
codec, the POSIX `unlink` call, the `Gate` primitive from
osgEarth/Threading) are modelled as explicit parameters or as a
transition system following their documented contracts.

Keys appearing below are the already-mangled stems (`fileURI.full()` in
the source): every operation derives the primary path as `stem ++ ".osgb"`
and the sidecar path as `stem ++ ".meta"`, exactly as the source does,
so the (external, injective) URI mangling is factored out.
-/

namespace FSCache

/-- File extension used for every primary object file (`OSG_EXT`). -/
def OSG_EXT : String := ".osgb"

/-- Extension of the metadata sidecar file. -/
def META_EXT : String := ".meta"

/-- Runtime category of a cached object, as discovered by the source's
`dynamic_cast` chain in `WriteOperation::operator()` (image / node /
generic). -/
inductive ObjKind : Type
  | image : ObjKind
  | node : ObjKind
  | generic : ObjKind
deriving DecidableEq, Repr

/-- An opaque cached object: its runtime category plus an opaque payload
standing for the object's value identity. -/
structure Obj : Type where
  kind : ObjKind
  data : Nat
deriving DecidableEq, Repr

/-- Metadata `Config`: an open string-to-string mapping, carried as an
association list.  The source only ever asks `_meta.empty()` and passes
it through the JSON codec wholesale. -/
def Meta : Type := List (String × String)

instance : DecidableEq Meta := by
  unfold Meta
  infer_instance

/-- `Config::empty()`. -/
def Meta.isEmptyB (m : Meta) : Bool :=
  List.isEmpty m

/-- Content of one file on disk: either encoded object bytes (opaque
payload produced by the osgDB writer) or a metadata sidecar (stored as
the round-tripped `Config`, since `writeMeta`/`readMeta` serialize it
through JSON wholesale). -/
inductive FileData : Type
  | obj : Nat → FileData
  | metaFile : Meta → FileData
deriving DecidableEq

/-- The external osgDB reader/writer (`_rw`): a fallible codec.  The
source checks `r.success()` on every call, so every operation is an
`Option`.  `valid` is `_rw.valid()`. -/
structure RW : Type where
  valid : Bool
  decodeObj : Nat → Option Obj
  writeImage : Obj → Option Nat
  writeNode : Obj → Option Nat
  writeObject : Obj → Option Nat

/-- Association-list lookup (used for the disk map and the overlay). -/
def alookup {α : Type} (l : List (String × α)) (k : String) : Option α :=
  match l with
  | [] => none
  | (k2, v) :: rest => if k2 = k then some v else alookup rest k

/-- Association-list insert-or-overwrite, mirroring
`_writeCache[key] = record` and a filesystem file write. -/
def ainsert {α : Type} (l : List (String × α)) (k : String) (v : α) :
    List (String × α) :=
  match l with
  | [] => [(k, v)]
  | (k2, v2) :: rest =>
      if k2 = k then (k, v) :: rest else (k2, v2) :: ainsert rest k v

/-- Association-list erase, mirroring `_writeCache.erase` and `unlink`. -/
def aerase {α : Type} (l : List (String × α)) (k : String) :
    List (String × α) :=
  match l with
  | [] => []
  | (k2, v2) :: rest =>
      if k2 = k then aerase rest k else (k2, v2) :: aerase rest k

theorem alookup_ainsert_self {α : Type} (l : List (String × α)) (k : String)
    (v : α) : alookup (ainsert l k v) k = some v := by
  induction l with
  | nil => simp [ainsert, alookup]
  | cons hd tl ih =>
      obtain ⟨k2, v2⟩ := hd
      by_cases h : k2 = k
      · simp [ainsert, h, alookup]
      · simp [ainsert, h, alookup, ih]

theorem alookup_ainsert_ne {α : Type} (l : List (String × α)) (k k2 : String)
    (v : α) (h : k ≠ k2) : alookup (ainsert l k v) k2 = alookup l k2 := by
  induction l with
  | nil => simp [ainsert, alookup, h]
  | cons hd tl ih =>
      obtain ⟨k3, v3⟩ := hd
      by_cases h2 : k3 = k
      · subst h2
        simp [ainsert, alookup, h, ih]
      · simp [ainsert, h2, alookup, ih]

theorem alookup_aerase_self {α : Type} (l : List (String × α)) (k : String) :
    alookup (aerase l k) k = none := by
  induction l with
  | nil => simp [aerase, alookup]
  | cons hd tl ih =>
      obtain ⟨k2, v2⟩ := hd
      by_cases h : k2 = k
      · simp [aerase, h, ih]
      · simp [aerase, h, alookup, ih]

theorem alookup_aerase_ne {α : Type} (l : List (String × α)) (k k2 : String)
    (h : k ≠ k2) : alookup (aerase l k) k2 = alookup l k2 := by
  induction l with
  | nil => simp [aerase]
  | cons hd tl ih =>
      obtain ⟨k3, v3⟩ := hd
      by_cases h2 : k3 = k
      · subst h2
        simp [aerase, alookup, h, ih]
      · simp [aerase, h2, alookup, ih]

theorem aerase_aerase {α : Type} (l : List (String × α)) (k : String) :
    aerase (aerase l k) k = aerase l k := by
  induction l with
  | nil => simp [aerase]
  | cons hd tl ih =>
      obtain ⟨k2, v2⟩ := hd
      by_cases h : k2 = k
      · simp [aerase, h, ih]
      · simp [aerase, h, ih]

/-- Mutable validity state of a `FileSystemCacheBin`: the `_ok` and
`_binPathExists` members.  A freshly constructed bin has
`_ok = true, _binPathExists = false`. -/
structure VState : Type where
  ok : Bool
  binPathExists : Bool
deriving DecidableEq, Repr

/-- Initial validity state set by the `FileSystemCacheBin` constructor. -/
def VState.init : VState := ⟨true, false⟩

/-- Observable outcome of one `binValidForReading`/`binValidForWriting`
call: the returned boolean, whether an `OE_WARN` was emitted, whether an
`osgDB::fileExists(_binPath)` filesystem check was performed, and the
updated member state. -/
structure ValidOut : Type where
  result : Bool
  warned : Bool
  checked : Bool
  state : VState
deriving DecidableEq, Repr

/-- `FileSystemCacheBin::binValidForReading(silent)`.  `rwValid` is the
(fixed) `_rw.valid()`; `dirExists` is what `osgDB::fileExists(_binPath)`
would report at this call. -/
def binValidForReading (rwValid dirExists silent : Bool) (s : VState) :
    ValidOut :=
  if !rwValid then
    ⟨false, false, false, { s with ok := false }⟩
  else if !s.binPathExists then
    if dirExists then
      ⟨true, false, true, ⟨true, true⟩⟩
    else if s.ok then
      ⟨false, !silent, true, { s with ok := false }⟩
    else
      ⟨s.ok, false, true, s⟩
  else
    ⟨s.ok, false, false, s⟩

/-- `FileSystemCacheBin::binValidForWriting(silent)`.  The source first
calls `makeDirectoryForFile(_metaPath)`; `dirExists` is what
`osgDB::fileExists(_binPath)` reports after that attempt.  Unlike the
reading variant, the failure branch warns unconditionally (no `_ok`
guard). -/
def binValidForWriting (rwValid dirExists silent : Bool) (s : VState) :
    ValidOut :=
  if !rwValid then
    ⟨false, false, false, { s with ok := false }⟩
  else if !s.binPathExists then
    if dirExists then
      ⟨true, false, true, ⟨true, true⟩⟩
    else
      ⟨false, !silent, true, { s with ok := false }⟩
  else
    ⟨s.ok, false, false, s⟩

/-- A run of consecutive `binValidForReading` calls; each list element is
the `(dirExists, silent)` pair observed by that call. -/
def runReadValid (rwValid : Bool) :
    List (Bool × Bool) → VState → List ValidOut
  | [], _ => []
  | (dirExists, silent) :: rest, s =>
      let o := binValidForReading rwValid dirExists silent s
      o :: runReadValid rwValid rest o.state

/-- Number of warnings emitted along a run. -/
def warnCount (outs : List ValidOut) : Nat :=
  List.countP (fun o => o.warned) outs

theorem binValidForReading_idem (rwValid dirExists silent : Bool)
    (s : VState) :
    (binValidForReading rwValid dirExists silent
      (binValidForReading rwValid dirExists silent s).state).state =
    (binValidForReading rwValid dirExists silent s).state := by
  cases s with
  | mk ok bpe =>
      cases rwValid <;> cases dirExists <;> cases silent <;>
        cases ok <;> cases bpe <;> rfl

theorem binValidForReading_idem_result (rwValid dirExists silent : Bool)
    (s : VState) :
    (binValidForReading rwValid dirExists silent
      (binValidForReading rwValid dirExists silent s).state).result =
    (binValidForReading rwValid dirExists silent s).result := by
  cases s with
  | mk ok bpe =>
      cases rwValid <;> cases dirExists <;> cases silent <;>
        cases ok <;> cases bpe <;> rfl

/-- `settled` means a state from which no future reading-validity call
can warn: `_ok` already false, or the bin path already observed. -/
def VState.settled (s : VState) : Prop :=
  s.ok = false ∨ s.binPathExists = true

theorem settled_preserved (rwValid dirExists silent : Bool) (s : VState)
    (h : s.settled) :
    (binValidForReading rwValid dirExists silent s).state.settled := by
  obtain ⟨ok, bpe⟩ := s
  rcases h with h | h <;> subst h <;>
    cases rwValid <;> cases dirExists <;> cases silent <;>
    first
      | (exact Or.inl rfl)
      | (exact Or.inr rfl)
      | (cases bpe <;> first | (exact Or.inl rfl) | (exact Or.inr rfl))

theorem warned_false_of_settled_step (rwValid dirExists silent : Bool)
    (s : VState) (h : s.settled) :
    (binValidForReading rwValid dirExists silent s).warned = false := by
  obtain ⟨ok, bpe⟩ := s
  rcases h with h | h <;> subst h <;>
    cases rwValid <;> cases dirExists <;> cases silent <;>
    first
      | rfl
      | (cases bpe <;> rfl)

/-- Once the state is settled, no call along any subsequent run warns. -/
theorem warned_false_of_settled (rwValid : Bool)
    (inputs : List (Bool × Bool)) (s : VState) (h : s.settled) :
    ∀ o ∈ runReadValid rwValid inputs s, o.warned = false := by
  induction inputs generalizing s with
  | nil =>
      intro o ho
      simp [runReadValid] at ho
  | cons hd tl ih =>
      obtain ⟨dirExists, silent⟩ := hd
      intro o ho
      rcases (List.mem_cons).1 ho with rfl | ho
      · exact warned_false_of_settled_step rwValid dirExists silent s h
      · exact ih _ (settled_preserved rwValid dirExists silent s h) o ho

theorem warnCount_zero_of_settled (rwValid : Bool)
    (inputs : List (Bool × Bool)) (s : VState) (h : s.settled) :
    warnCount (runReadValid rwValid inputs s) = 0 := by
  unfold warnCount
  rw [List.countP_eq_zero]
  intro o ho
  simp [warned_false_of_settled rwValid inputs s h o ho]

/-- After any single reading-validity call, the state is settled
(`_ok = false` or `_binPathExists = true`) or untouched at `⟨true, false⟩`
only in the impossible branch; concretely: from any state, the next state
of a call either is settled or equals `⟨true, true⟩`. -/
theorem binValidForReading_settles (rwValid dirExists silent : Bool)
    (s : VState) (h : s = VState.init) :
    ((binValidForReading rwValid dirExists silent s).state.ok = false ∨
      (binValidForReading rwValid dirExists silent s).state.binPathExists
        = true) := by
  subst h
  cases rwValid <;> cases dirExists <;> cases silent <;>
    simp [binValidForReading, VState.init]

/-- **C7** (bin-validity state machine): once the bin directory has been
observed (`_binPathExists`), validity is cached as true and the call does
no filesystem check and leaves the state untouched; while unobserved,
every call (with a valid reader-writer) performs a filesystem existence
check; along any sequence of reading-validity calls from the initial
state at most one call warns; with `_ok` already false and the directory
still absent the bin keeps reporting invalid with unchanged state; and a
later call that finds the directory restored returns valid and caches the
observation. -/
theorem claim_C7_bin_validity (rwValid dirExists silent : Bool)
    (s : VState) (inputs : List (Bool × Bool)) :
    (rwValid = true → s.binPathExists = true → s.ok = true →
      binValidForReading rwValid dirExists silent s
        = ⟨true, false, false, s⟩) ∧
    (rwValid = true → s.binPathExists = false →
      (binValidForReading rwValid dirExists silent s).checked = true) ∧
    (warnCount (runReadValid rwValid inputs VState.init) ≤ 1) ∧
    (s.ok = false → s.binPathExists = false → dirExists = false →
      (binValidForReading rwValid dirExists silent s).result = false ∧
      (binValidForReading rwValid dirExists silent s).state = s) ∧
    (rwValid = true → s.binPathExists = false → dirExists = true →
      binValidForReading rwValid dirExists silent s
        = ⟨true, false, true, ⟨true, true⟩⟩) := by
  obtain ⟨ok, bpe⟩ := s
  refine ⟨?_, ?_, ?_, ?_, ?_⟩
  · intro hrw hbpe hok
    subst hrw hbpe hok
    rfl
  · intro hrw hbpe
    subst hrw hbpe
    cases dirExists <;> cases ok <;> cases silent <;> rfl
  · cases inputs with
    | nil => simp [runReadValid, warnCount]
    | cons hd tl =>
        obtain ⟨d0, s0⟩ := hd
        have hset : (binValidForReading rwValid d0 s0 VState.init).state.settled :=
          binValidForReading_settles rwValid d0 s0 VState.init rfl
        have hzero :=
          warnCount_zero_of_settled rwValid tl
            (binValidForReading rwValid d0 s0 VState.init).state hset
        show warnCount
          (binValidForReading rwValid d0 s0 VState.init ::
            runReadValid rwValid tl
              (binValidForReading rwValid d0 s0 VState.init).state) ≤ 1
        unfold warnCount at hzero ⊢
        rw [List.countP_cons, hzero]
        split <;> simp
  · intro hok hbpe hdir
    subst hok hbpe hdir
    cases rwValid <;> cases silent <;> exact ⟨rfl, rfl⟩
  · intro hrw hbpe hdir
    subst hrw hbpe hdir
    cases ok <;> cases silent <;> rfl

/-- Witness for C7 at concrete inputs. -/
theorem claim_C7_bin_validity_witness :
    (binValidForReading true false true ⟨true, true⟩
      = ⟨true, false, false, ⟨true, true⟩⟩) ∧
    ((binValidForReading true false true ⟨true, false⟩).checked = true) ∧
    (warnCount (runReadValid true
      [(false, false), (false, false), (true, false)] VState.init) ≤ 1) ∧
    ((binValidForReading false false true ⟨false, false⟩).result = false) ∧
    (binValidForReading true true true ⟨false, false⟩
      = ⟨true, false, true, ⟨true, true⟩⟩) := by
  have h := claim_C7_bin_validity true false true ⟨true, true⟩
    [(false, false), (false, false), (true, false)]
  have h2 := claim_C7_bin_validity true false true ⟨true, false⟩ []
  have h3 := claim_C7_bin_validity false false true ⟨false, false⟩ []
  have h4 := claim_C7_bin_validity true true true ⟨false, false⟩ []
  exact ⟨h.1 rfl rfl rfl, h2.2.1 rfl rfl, h.2.2.1,
    (h3.2.2.2.1 rfl rfl rfl).1, h4.2.2.2.2 rfl rfl rfl⟩

/-- Write-pending overlay record (`WriteCacheRecord` in the source). -/
structure WriteCacheRecord : Type where
  meta : Meta
  object : Obj
deriving DecidableEq

/-- A write task handed to the thread pool but not yet executed (the
fields captured by `WriteOperation`). -/
structure PendingWrite : Type where
  key : String
  object : Obj
  meta : Meta
deriving DecidableEq

/-- Whole-bin sequential state: validity members, the write-pending
overlay (`_writeCache`), the disk (path to file content), and the queue
of not-yet-executed asynchronous write tasks. -/
structure CState : Type where
  v : VState
  writeCache : List (String × WriteCacheRecord)
  disk : List (String × FileData)
  pending : List PendingWrite
deriving DecidableEq

/-- Observable side effects of one operation, in program order.
`statCheck` is an `osgDB::fileExists` probe; `contentRead` /
`contentWrite` are content I/O through the codec or a stream. -/
inductive Ev : Type
  | gateAcquire : String → Ev
  | gateRelease : String → Ev
  | statCheck : String → Ev
  | contentRead : String → Ev
  | contentWrite : String → Ev
  | overlayHit : String → Ev
  | overlayErase : String → Ev
  | unlinkCall : String → Ev
  | mkdirCall : String → Ev
deriving DecidableEq

/-- Result of a read: `RESULT_NOT_FOUND` (also what the
default-constructed `ReadResult()` after a codec failure reports) or a
found object with its sidecar metadata. -/
inductive RResult : Type
  | notFound : RResult
  | found : Obj → Meta → RResult
deriving DecidableEq

/-- `CacheBin::RecordStatus`. -/
inductive RecordStatus : Type
  | ok : RecordStatus
  | notFound : RecordStatus
deriving DecidableEq

/-- `FileSystemCacheBin::readObject`.  `tp` is whether `_threadPool` is
configured; `dirExists` is what the inner `binValidForReading` observes.
Mirrors the source line by line: validity check, path mangling, the
`fileExists` early return, gate acquisition, the overlay lookup (pool
only), the codec read, and the sidecar metadata read. -/
def readObject (rw : RW) (tp : Bool) (key : String) (dirExists : Bool)
    (c : CState) : RResult × CState × List Ev :=
  let vo := binValidForReading rw.valid dirExists true c.v
  let c1 : CState := { c with v := vo.state }
  if vo.result = false then
    (.notFound, c1, [])
  else
    let path := key ++ OSG_EXT
    match alookup c1.disk path with
    | none => (.notFound, c1, [.statCheck path])
    | some fileData =>
        let evs0 : List Ev := [.statCheck path, .gateAcquire key]
        match tp, alookup c1.writeCache key with
        | true, some rec =>
            (.found rec.object rec.meta, c1,
              evs0 ++ [.overlayHit key, .gateRelease key])
        | _, _ =>
            match fileData with
            | .obj bytes =>
                match rw.decodeObj bytes with
                | none =>
                    (.notFound, c1,
                      evs0 ++ [.contentRead path, .gateRelease key])
                | some o =>
                    let metafile := key ++ META_EXT
                    let meta : Meta :=
                      match alookup c1.disk metafile with
                      | some (.metaFile m) => m
                      | _ => []
                    (.found o meta, c1,
                      evs0 ++ [.contentRead path, .statCheck metafile,
                        .gateRelease key])
            | .metaFile _ =>
                (.notFound, c1,
                  evs0 ++ [.contentRead path, .gateRelease key])

/-- `FileSystemCacheBin::getRecordStatus`: validity check plus a bare
existence probe of the primary file. -/
def getRecordStatus (rw : RW) (key : String) (dirExists : Bool)
    (c : CState) : RecordStatus × CState × List Ev :=
  let vo := binValidForReading rw.valid dirExists true c.v
  let c1 : CState := { c with v := vo.state }
  if vo.result = false then
    (.notFound, c1, [])
  else
    let path := key ++ OSG_EXT
    if (alookup c1.disk path).isSome then
      (.ok, c1, [.statCheck path])
    else
      (.notFound, c1, [.statCheck path])

/-- `FileSystemCacheBin::remove`: validity check, gate, `::unlink` of the
primary file only.  `unlink` succeeds exactly when the file exists. -/
def remove (rw : RW) (key : String) (dirExists : Bool) (c : CState) :
    Bool × CState × List Ev :=
  let vo := binValidForReading rw.valid dirExists true c.v
  let c1 : CState := { c with v := vo.state }
  if vo.result = false then
    (false, c1, [])
  else
    let path := key ++ OSG_EXT
    ((alookup c1.disk path).isSome,
      { c1 with disk := aerase c1.disk path },
      [.gateAcquire key, .unlinkCall path, .gateRelease key])

/-- Dispatch of `WriteOperation::operator()` on the object's runtime
category (the `dynamic_cast` chain): image, node, or generic object. -/
def encodeFor (rw : RW) (o : Obj) : Option Nat :=
  match o.kind with
  | .image => rw.writeImage o
  | .node => rw.writeNode o
  | .generic => rw.writeObject o

/-- Outcome of one execution of `WriteOperation::operator()`. -/
structure WriteOpOut : Type where
  state : CState
  events : List Ev
  writeOK : Bool
deriving DecidableEq

/-- `WriteOperation::operator()` (the write task body, executed inline or
by a pool worker): gate, ensure parent directory, encode and write the
primary file, conditionally write the metadata sidecar, erase the
overlay entry, release.  `parentDirExists` is what the
`fileExists(getFilePath(...))` probe observes. -/
def writeOperation (rw : RW) (key : String) (o : Obj) (meta : Meta)
    (parentDirExists : Bool) (c : CState) : WriteOpOut :=
  let evDir : List Ev := if parentDirExists then [] else [.mkdirCall key]
  let enc := encodeFor rw o
  let path := key ++ OSG_EXT
  let writeOK := enc.isSome
  let disk1 :=
    match enc with
    | some bytes => ainsert c.disk path (.obj bytes)
    | none => c.disk
  let metafile := key ++ META_EXT
  let metaWrite := !(Meta.isEmptyB meta) && writeOK
  let disk2 :=
    if metaWrite then ainsert disk1 metafile (.metaFile meta) else disk1
  let evMeta : List Ev := if metaWrite then [.contentWrite metafile] else []
  { state :=
      { c with disk := disk2, writeCache := aerase c.writeCache key },
    events :=
      [.gateAcquire key] ++ evDir ++ [.contentWrite path] ++ evMeta
        ++ [.overlayErase key, .gateRelease key],
    writeOK := writeOK }

/-- `FileSystemCacheBin::write`: writing-validity and null checks, then
either the asynchronous path (overlay insert plus task enqueue, nodes
excluded) or the synchronous inline execution of the write task.  The
returned boolean is the caller-visible result. -/
def write (rw : RW) (tp : Bool) (key : String) (object : Option Obj)
    (meta : Meta) (dirExists parentDirExists : Bool) (c : CState) :
    Bool × CState × List Ev :=
  let vo := binValidForWriting rw.valid dirExists false c.v
  let c1 : CState := { c with v := vo.state }
  match object with
  | none => (false, c1, [])
  | some o =>
      if vo.result = false then
        (false, c1, [])
      else if tp && !(decide (o.kind = ObjKind.node)) then
        (true,
          { c1 with
            writeCache := ainsert c1.writeCache key ⟨meta, o⟩,
            pending := c1.pending ++ [⟨key, o, meta⟩] },
          [])
      else
        let wo := writeOperation rw key o meta parentDirExists c1
        (true, wo.state, wo.events)

/-- The primary path and the sidecar path of a key never collide. -/
theorem primary_ne_meta (key : String) :
    key ++ OSG_EXT ≠ key ++ META_EXT := by
  intro h
  have h2 : (key ++ OSG_EXT).data = (key ++ META_EXT).data :=
    congrArg String.data h
  rw [String.data_append, String.data_append] at h2
  have h3 := List.append_cancel_left h2
  have h4 : OSG_EXT.data ≠ META_EXT.data := by decide
  exact h4 h3

/-- Fixture codec: decoding yields a generic object carrying the bytes,
and every category encodes its payload. -/
def rwId : RW :=
  ⟨true, fun n => some ⟨ObjKind.generic, n⟩, fun o => some o.data,
    fun o => some o.data, fun o => some o.data⟩

/-- Fixture codec that fails every encode and decode (e.g. the plugin
rejects the stream). -/
def rwFail : RW :=
  ⟨true, fun _ => none, fun _ => none, fun _ => none, fun _ => none⟩

/-- Fixture key (already-mangled stem). -/
def kA : String := "alpha"

/-- Fixture generic objects and metadata. -/
def oGen : Obj := ⟨ObjKind.generic, 7⟩

def oGen3 : Obj := ⟨ObjKind.generic, 3⟩

def mAB : Meta := [("a", "b")]

/-- Fresh bin over an empty disk. -/
def cEmpty : CState := ⟨VState.init, [], [], []⟩

/-- Bin state with key `kA` both in the overlay and on disk. -/
def cOv : CState :=
  ⟨⟨true, true⟩, [(kA, ⟨mAB, oGen3⟩)], [(kA ++ OSG_EXT, FileData.obj 9)], []⟩

/-- Bin state with key `kA` on disk only (contents arbitrary). -/
def cCorrupt : CState :=
  ⟨⟨true, true⟩, [], [(kA ++ OSG_EXT, FileData.obj 9)], []⟩

/-- Bin state with a primary file and a metadata sidecar for `kA`. -/
def cMeta : CState :=
  ⟨⟨true, true⟩, [],
    [(kA ++ OSG_EXT, FileData.obj 9), (kA ++ META_EXT, FileData.metaFile mAB)],
    []⟩

/-- **C1** (failing evaluation): with a thread pool configured and an
empty disk, `write` returns true and leaves the record in the
write-pending overlay, yet the immediately following `readObject` of the
same key returns NOT_FOUND: the `fileExists` early return in
`readObject` precedes the overlay lookup, so the write is not readable
before the asynchronous disk write completes.  This contradicts the
source's own comment that the write cache "supports reading from the
cache before the object has been asynchronously written to disk". -/
theorem claim_C1_read_your_writes :
    (write rwId true kA (some oGen) mAB true true cEmpty).1 = true ∧
    alookup
        (write rwId true kA (some oGen) mAB true true cEmpty).2.1.writeCache
        kA = some ⟨mAB, oGen⟩ ∧
    (write rwId true kA (some oGen) mAB true true cEmpty).2.1.disk = [] ∧
    (readObject rwId true kA true
        (write rwId true kA (some oGen) mAB true true cEmpty).2.1).1
      = RResult.notFound := by
  decide

/-- **C2** (counterexample): a read of a key present in the write-pending
overlay does return the overlay record, but its event trace contains the
gate acquisition — the claimed gate-free fast path does not exist. -/
theorem claim_C2_counterexample :
    (alookup cOv.writeCache kA).isSome = true ∧
    (readObject rwId true kA true cOv).1 = RResult.found oGen3 mAB ∧
    Ev.gateAcquire kA ∈ (readObject rwId true kA true cOv).2.2 := by
  decide

/-- **C2** (amended): on every read that passes the validity check and
finds the primary file on disk, the per-key gate is acquired before the
overlay is consulted; an overlay hit (pool configured) then returns the
overlay's object and metadata with no content I/O — the fast path skips
the disk read, not the gate. -/
theorem claim_C2_overlay_hit_after_gate (rw : RW) (key : String)
    (dirExists : Bool) (c : CState) (rec : WriteCacheRecord)
    (hv : (binValidForReading rw.valid dirExists true c.v).result = true)
    (hd : (alookup c.disk (key ++ OSG_EXT)).isSome = true)
    (hov : alookup c.writeCache key = some rec) :
    readObject rw true key dirExists c
      = (RResult.found rec.object rec.meta,
          { c with v := (binValidForReading rw.valid dirExists true c.v).state },
          [Ev.statCheck (key ++ OSG_EXT), Ev.gateAcquire key,
            Ev.overlayHit key, Ev.gateRelease key]) := by
  obtain ⟨fd, hfd⟩ := Option.isSome_iff_exists.mp hd
  simp only [readObject, hv, hfd, hov]
  rfl

/-- Witness for the amended C2 at a concrete overlay-hit state. -/
theorem claim_C2_overlay_hit_after_gate_witness :
    readObject rwId true kA true cOv
      = (RResult.found oGen3 mAB,
          { cOv with
            v := (binValidForReading rwId.valid true true cOv.v).state },
          [Ev.statCheck (kA ++ OSG_EXT), Ev.gateAcquire kA,
            Ev.overlayHit kA, Ev.gateRelease kA]) :=
  claim_C2_overlay_hit_after_gate rwId kA true cOv ⟨mAB, oGen3⟩
    (by decide) (by decide) (by decide)

/-- **C3**: in every execution of the write task, the metadata sidecar is
written exactly when the primary write succeeded and the metadata is
non-empty; the overlay entry for the key is erased after the disk write
attempt (success or failure), and the entire event sequence is bracketed
by a single gate acquire/release pair for that key. -/
theorem claim_C3_write_task_protocol (rw : RW) (key : String) (o : Obj)
    (meta : Meta) (pde : Bool) (c : CState) :
    ((writeOperation rw key o meta pde c).events
      = [Ev.gateAcquire key]
        ++ (if pde then [] else [Ev.mkdirCall key])
        ++ [Ev.contentWrite (key ++ OSG_EXT)]
        ++ (if !(Meta.isEmptyB meta)
              && (writeOperation rw key o meta pde c).writeOK
            then [Ev.contentWrite (key ++ META_EXT)] else [])
        ++ [Ev.overlayErase key, Ev.gateRelease key]) ∧
    ((writeOperation rw key o meta pde c).state.writeCache
      = aerase c.writeCache key) ∧
    (((writeOperation rw key o meta pde c).writeOK = false ∨
        Meta.isEmptyB meta = true) →
      alookup (writeOperation rw key o meta pde c).state.disk
          (key ++ META_EXT)
        = alookup c.disk (key ++ META_EXT)) := by
  refine ⟨?_, ?_, ?_⟩
  · cases henc : encodeFor rw o <;> cases hm : Meta.isEmptyB meta <;>
      cases pde <;> simp [writeOperation, henc, hm]
  · cases henc : encodeFor rw o <;> simp [writeOperation, henc]
  · intro h
    cases henc : encodeFor rw o with
    | none => simp [writeOperation, henc]
    | some bytes =>
        have hwOK : (writeOperation rw key o meta pde c).writeOK = true := by
          simp [writeOperation, henc]
        rcases h with h | h
        · rw [hwOK] at h
          exact absurd h (by simp)
        · simp [writeOperation, henc, h,
            alookup_ainsert_ne c.disk (key ++ OSG_EXT) (key ++ META_EXT)
              _ (primary_ne_meta key)]

/-- Witness for C3 at a concrete input with a failing primary write. -/
theorem claim_C3_write_task_protocol_witness :
    alookup (writeOperation rwFail kA oGen mAB true cEmpty).state.disk
        (kA ++ META_EXT)
      = alookup cEmpty.disk (kA ++ META_EXT) :=
  (claim_C3_write_task_protocol rwFail kA oGen mAB true cEmpty).2.2
    (Or.inl (by decide))

/-- **C4** (counterexample): with the primary file present on disk but
its contents rejected by the codec (and an empty overlay),
`getRecordStatus` answers OK while the immediately following read
returns NOT_FOUND: the probe only checks existence, the read also needs
the codec to succeed. -/
theorem claim_C4_counterexample :
    (getRecordStatus rwFail kA true cCorrupt).1 = RecordStatus.ok ∧
    (readObject rwFail true kA true
        (getRecordStatus rwFail kA true cCorrupt).2.1).1
      = RResult.notFound := by
  decide

/-- **C4** (amended): `getRecordStatus` is an existence probe performing
no content I/O, answering OK exactly when the validity check passes and
the primary file exists; a found record from the immediately following
read implies the probe answered OK, and conversely OK guarantees a found
read provided the overlay holds the key (pool configured) or the file's
contents decode successfully. -/
theorem claim_C4_status_probe (rw : RW) (tp : Bool) (key : String)
    (dirExists : Bool) (c : CState) :
    ((getRecordStatus rw key dirExists c).1 = RecordStatus.ok ↔
      ((binValidForReading rw.valid dirExists true c.v).result = true ∧
        (alookup c.disk (key ++ OSG_EXT)).isSome = true)) ∧
    (∀ p, Ev.contentRead p ∉ (getRecordStatus rw key dirExists c).2.2) ∧
    (∀ o m,
      (readObject rw tp key dirExists
          (getRecordStatus rw key dirExists c).2.1).1 = RResult.found o m →
      (getRecordStatus rw key dirExists c).1 = RecordStatus.ok) ∧
    ((getRecordStatus rw key dirExists c).1 = RecordStatus.ok →
      ((tp = true ∧ (alookup c.writeCache key).isSome = true) ∨
        (∃ bytes,
          alookup c.disk (key ++ OSG_EXT) = some (FileData.obj bytes) ∧
          (rw.decodeObj bytes).isSome = true)) →
      ∃ o m,
        (readObject rw tp key dirExists
            (getRecordStatus rw key dirExists c).2.1).1
          = RResult.found o m) := by
  have hidemr := binValidForReading_idem_result rw.valid dirExists true c.v
  have hidems := binValidForReading_idem rw.valid dirExists true c.v
  refine ⟨?_, ?_, ?_, ?_⟩
  · cases hv : (binValidForReading rw.valid dirExists true c.v).result <;>
      cases hd : (alookup c.disk (key ++ OSG_EXT)).isSome <;>
      simp [getRecordStatus, hv, hd]
  · intro p
    cases hv : (binValidForReading rw.valid dirExists true c.v).result <;>
      cases hd : (alookup c.disk (key ++ OSG_EXT)).isSome <;>
      simp [getRecordStatus, hv, hd]
  · intro o m hfound
    cases hv : (binValidForReading rw.valid dirExists true c.v).result with
    | false =>
        exfalso
        rw [hv] at hidemr
        simp [getRecordStatus, hv, readObject, hidemr] at hfound
    | true =>
        cases hd : alookup c.disk (key ++ OSG_EXT) with
        | none =>
            exfalso
            rw [hv] at hidemr
            simp [getRecordStatus, hv, hd, readObject, hidemr] at hfound
        | some fd =>
            simp [getRecordStatus, hv, hd]
  · intro hok hside
    cases hv : (binValidForReading rw.valid dirExists true c.v).result with
    | false => simp [getRecordStatus, hv] at hok
    | true =>
        rw [hv] at hidemr
        cases hd : alookup c.disk (key ++ OSG_EXT) with
        | none => simp [getRecordStatus, hv, hd] at hok
        | some fd =>
            rcases hside with ⟨htp, hovs⟩ | ⟨bytes, hbytes, hdec⟩
            · obtain ⟨rec, hov⟩ := Option.isSome_iff_exists.mp hovs
              subst htp
              refine ⟨rec.object, rec.meta, ?_⟩
              simp [getRecordStatus, hv, hd, readObject, hidemr, hov]
            · rw [hd] at hbytes
              obtain ⟨o2, ho2⟩ := Option.isSome_iff_exists.mp hdec
              cases hbytes
              cases tp with
              | false =>
                  simp [getRecordStatus, hv, hd, readObject, hidemr, ho2]
              | true =>
                  cases hov : alookup c.writeCache key with
                  | none =>
                      simp [getRecordStatus, hv, hd, readObject, hidemr,
                        hov, ho2]
                  | some rec =>
                      refine ⟨rec.object, rec.meta, ?_⟩
                      simp [getRecordStatus, hv, hd, readObject, hidemr,
                        hov]

/-- Witness for the amended C4 at a concrete state (overlay hit and
decodable disk file). -/
theorem claim_C4_status_probe_witness :
    ((getRecordStatus rwId kA true cOv).1 = RecordStatus.ok) ∧
    (∃ o m,
      (readObject rwId true kA true
          (getRecordStatus rwId kA true cOv).2.1).1 = RResult.found o m) := by
  have h := claim_C4_status_probe rwId true kA true cOv
  have hok : (getRecordStatus rwId kA true cOv).1 = RecordStatus.ok :=
    h.1.mpr ⟨by decide, by decide⟩
  exact ⟨hok, h.2.2.2 hok (Or.inl ⟨rfl, by decide⟩)⟩

/-- A successful reading-validity check with the directory present leaves
the state at the absorbing `⟨true, true⟩`. -/
theorem binValidForReading_true_state (silent : Bool) (s : VState)
    (h : (binValidForReading true true silent s).result = true) :
    (binValidForReading true true silent s).state = ⟨true, true⟩ := by
  obtain ⟨ok, bpe⟩ := s
  cases ok <;> cases bpe <;> cases silent <;> first | rfl | (exact absurd h (by decide))

/-- **C6**: removing an absent key returns false without error; a second
`remove` leaves the state of the first unchanged and returns false; a
remove succeeds exactly when the bin is valid for reading and deletion
of the primary file succeeds (the file existed), with the metadata
sidecar never attempted — every `unlink` issued names the primary file,
and the sidecar disk entry is untouched. -/
theorem claim_C6_remove_idempotent (rw : RW) (key : String)
    (dirExists : Bool) (c : CState) :
    ((alookup c.disk (key ++ OSG_EXT) = none) →
      (remove rw key dirExists c).1 = false) ∧
    ((remove rw key dirExists (remove rw key dirExists c).2.1).2.1
        = (remove rw key dirExists c).2.1 ∧
      (remove rw key dirExists (remove rw key dirExists c).2.1).1 = false) ∧
    ((remove rw key dirExists c).1
      = ((binValidForReading rw.valid dirExists true c.v).result &&
          (alookup c.disk (key ++ OSG_EXT)).isSome)) ∧
    (alookup (remove rw key dirExists c).2.1.disk (key ++ META_EXT)
      = alookup c.disk (key ++ META_EXT)) ∧
    (∀ p, Ev.unlinkCall p ∈ (remove rw key dirExists c).2.2 →
      p = key ++ OSG_EXT) := by
  have hidemr := binValidForReading_idem_result rw.valid dirExists true c.v
  have hidems := binValidForReading_idem rw.valid dirExists true c.v
  refine ⟨?_, ⟨?_, ?_⟩, ?_, ?_, ?_⟩
  · intro h
    cases hv : (binValidForReading rw.valid dirExists true c.v).result <;>
      simp [remove, hv, h]
  · cases hv : (binValidForReading rw.valid dirExists true c.v).result <;>
      rw [hv] at hidemr <;>
      simp [remove, hv, hidemr, hidems, aerase_aerase]
  · cases hv : (binValidForReading rw.valid dirExists true c.v).result <;>
      rw [hv] at hidemr <;>
      simp [remove, hv, hidemr, hidems, alookup_aerase_self]
  · cases hv : (binValidForReading rw.valid dirExists true c.v).result <;>
      simp [remove, hv]
  · cases hv : (binValidForReading rw.valid dirExists true c.v).result <;>
      simp [remove, hv,
        alookup_aerase_ne c.disk (key ++ OSG_EXT) (key ++ META_EXT)
          (primary_ne_meta key)]
  · intro p hp
    cases hv : (binValidForReading rw.valid dirExists true c.v).result <;>
      simp [remove, hv] at hp
    simp [hp]

/-- Witness for C6 at a concrete input (absent key). -/
theorem claim_C6_remove_idempotent_witness :
    (remove rwId kA true cEmpty).1 = false ∧
    (remove rwId kA true (remove rwId kA true cOv).2.1).1 = false := by
  have h1 := claim_C6_remove_idempotent rwId kA true cEmpty
  have h2 := claim_C6_remove_idempotent rwId kA true cOv
  exact ⟨h1.1 (by decide), h2.2.1.2⟩

/-- **C9**: `write` returns false exactly when the bin is not valid for
writing or the object pointer is null; in every other case — including a
synchronous write whose disk write fails — it returns true, so the
boolean result never reflects disk-write success (the codec functions of
`rw` do not appear in the result). -/
theorem claim_C9_write_result_boundary (rw : RW) (tp : Bool) (key : String)
    (object : Option Obj) (meta : Meta) (dirExists parentDirExists : Bool)
    (c : CState) :
    (write rw tp key object meta dirExists parentDirExists c).1
      = ((binValidForWriting rw.valid dirExists false c.v).result
          && object.isSome) := by
  cases object with
  | none => simp [write]
  | some o =>
      cases hv : (binValidForWriting rw.valid dirExists false c.v).result <;>
        simp [write, hv]
      split <;> rfl

/-- **C10**: `remove` unlinks only the primary object file: the disk
after a remove is exactly the old disk minus the primary path, the
`.meta` sidecar entry survives, and after a synchronous re-write of the
key with empty metadata the next read returns the re-written object
together with the stale sidecar metadata. -/
theorem claim_C10_remove_sidecar_frame (rw : RW) (key : String)
    (c : CState) (oldMeta : Meta) (o o2 : Obj) (bytes : Nat) (pde : Bool)
    (hrw : rw.valid = true)
    (hv : (binValidForReading rw.valid true true c.v).result = true)
    (hmeta : alookup c.disk (key ++ META_EXT)
      = some (FileData.metaFile oldMeta))
    (henc : encodeFor rw o = some bytes)
    (hdec : rw.decodeObj bytes = some o2) :
    ((remove rw key true c).2.1.disk = aerase c.disk (key ++ OSG_EXT)) ∧
    (alookup (remove rw key true c).2.1.disk (key ++ META_EXT)
      = some (FileData.metaFile oldMeta)) ∧
    ((readObject rw false key true
        (write rw false key (some o) [] true pde
          (remove rw key true c).2.1).2.1).1
      = RResult.found o2 oldMeta) := by
  rw [hrw] at hv
  have hst := binValidForReading_true_state true c.v hv
  have hme : alookup (aerase c.disk (key ++ OSG_EXT)) (key ++ META_EXT)
      = some (FileData.metaFile oldMeta) := by
    rw [alookup_aerase_ne c.disk (key ++ OSG_EXT) (key ++ META_EXT)
      (primary_ne_meta key)]
    exact hmeta
  refine ⟨?_, ?_, ?_⟩
  · simp [remove, hrw, hv]
  · simp [remove, hrw, hv, hme]
  · simp only [remove, hrw, hv, if_false, Bool.false_eq_true, ite_false,
      ite_true, hst]
    simp only [write, writeOperation, hrw, hst, henc]
    simp [readObject, hrw, alookup_ainsert_self, hdec,
      binValidForWriting, binValidForReading, Meta.isEmptyB]
    rw [alookup_ainsert_ne (aerase c.disk (key ++ OSG_EXT))
      (key ++ OSG_EXT) (key ++ META_EXT) (FileData.obj bytes)
      (primary_ne_meta key), hme]

/-- Witness for C10 at a concrete state carrying a sidecar. -/
theorem claim_C10_remove_sidecar_frame_witness :
    (readObject rwId false kA true
        (write rwId false kA (some oGen) [] true true
          (remove rwId kA true cMeta).2.1).2.1).1
      = RResult.found oGen mAB :=
  (claim_C10_remove_sidecar_frame rwId kA cMeta mAB oGen oGen 7 true
    rfl (by decide) (by decide) rfl rfl).2.2

mutual
/-- A filesystem node as classified by `osgDB::fileType`: a regular
file, a directory, or anything else (neither branch of the purge acts
on the latter). -/
inductive FSNode : Type
  | reg : FSNode
  | special : FSNode
  | dir : FSEntries → FSNode
/-- Ordered directory contents (`osgDB::getDirectoryContents`). -/
inductive FSEntries : Type
  | nil : FSEntries
  | cons : String → FSNode → FSEntries → FSEntries
end

/-- One `::unlink` call issued by the purge: the full path and whether
the target is a directory. -/
structure UnlinkAttempt : Type where
  path : String
  isDir : Bool
deriving DecidableEq, Repr

/-- Path separator used by `osgDB::concatPaths`. -/
def sep : String := "/"

/-- `osgDB::concatPaths`. -/
def concatPaths (left right : String) : String :=
  if left = "" then right else left ++ sep ++ right

/-- Character-list prefix test. -/
def isPre : List Char → List Char → Bool
  | [], _ => true
  | _ :: _, [] => false
  | a :: pre2, b :: s2 => a == b && isPre pre2 s2

/-- Character-list substring test (decision procedure for
`std::string::find(sub) != npos`). -/
def isInfixB (sub : List Char) : List Char → Bool
  | [] => isPre sub []
  | c :: rest => isPre sub (c :: rest) || isInfixB sub rest

/-- `hay.find(sub) != std::string::npos`. -/
def strContains (hay sub : String) : Bool :=
  isInfixB sub.data hay.data

/-- String prefix test over the underlying character lists. -/
def strPre (pre s : String) : Bool :=
  isPre pre.data s.data

mutual
/-- Action of `FileSystemCacheBin::purgeDirectory` on one directory
entry that already passed the safety latch: regular files other than the
bin metadata file are unlinked; directories other than `.`/`..` are
recursively purged and then unlinked (the recursive call's boolean is
discarded, as in the source); other node types are skipped.  Returns
(this entry's `ok == 0`, unlink calls issued).  `fails p d` tells
whether `::unlink(p)` fails when the target is a directory iff `d`. -/
def purgeEntry (binID metaPath : String) (fails : String → Bool → Bool)
    (full name : String) : FSNode → Bool × List UnlinkAttempt
  | .reg =>
      if full = metaPath then (true, [])
      else (!(fails full false), [⟨full, false⟩])
  | .special => (true, [])
  | .dir es =>
      if name = "." ∨ name = ".." then (true, [])
      else
        ((!(fails full true)),
          (purgeEntries binID metaPath fails full es).2 ++ [⟨full, true⟩])
/-- `FileSystemCacheBin::purgeDirectory` over the contents of `dir`:
every entry is path-concatenated, checked against the safety latch
(`full.find(getID()) != npos`), acted on, and the per-entry results are
conjoined (`allOK`); failures do not stop the loop.  The repeated
`binValidForReading` checks of the source are constant after the first
successful one (the `⟨true, true⟩` state is absorbing), so validity is
handled once, in `clear`. -/
def purgeEntries (binID metaPath : String) (fails : String → Bool → Bool)
    (dir : String) : FSEntries → Bool × List UnlinkAttempt
  | .nil => (true, [])
  | .cons name node rest =>
      let full := concatPaths dir name
      let e :=
        if strContains full binID then
          purgeEntry binID metaPath fails full name node
        else (true, [])
      let r := purgeEntries binID metaPath fails dir rest
      (e.1 && r.1, e.2 ++ r.2)
end

/-- `FileSystemCacheBin::clear`: validity check, then purge of the bin
directory (`osgDB::getFilePath(_metaPath)`, i.e. `_binPath`). -/
def clearBin (rw : RW) (dirExists : Bool) (fails : String → Bool → Bool)
    (binID binPath metaPath : String) (t : FSEntries) (v : VState) :
    Bool × VState × List UnlinkAttempt :=
  let vo := binValidForReading rw.valid dirExists true v
  if vo.result = false then
    (false, vo.state, [])
  else
    let p := purgeEntries binID metaPath fails binPath t
    (p.1, vo.state, p.2)

theorem isPre_append_self (l r : List Char) : isPre l (l ++ r) = true := by
  induction l with
  | nil => rfl
  | cons a l2 ih => simp [isPre, ih]

theorem isPre_of_append (x y s : List Char)
    (h : isPre (x ++ y) s = true) : isPre x s = true := by
  induction x generalizing s with
  | nil => rfl
  | cons a x2 ih =>
      cases s with
      | nil => simp [isPre] at h
      | cons b s2 =>
          simp [isPre] at h ⊢
          exact ⟨h.1, ih s2 h.2⟩

theorem concatPaths_ne_empty (dir name : String) (h : dir ≠ "") :
    concatPaths dir name ≠ "" := by
  unfold concatPaths
  rw [if_neg h]
  intro h2
  have h3 : (dir ++ sep ++ name).data = [] := by rw [h2]
  rw [String.data_append, String.data_append] at h3
  simp [sep] at h3

theorem strPre_concat_self (dir name : String) (h : dir ≠ "") :
    strPre (dir ++ sep) (concatPaths dir name) = true := by
  unfold strPre concatPaths
  rw [if_neg h]
  have h2 : (dir ++ sep ++ name).data = (dir ++ sep).data ++ name.data := by
    rw [String.data_append]
  rw [h2]
  exact isPre_append_self _ _

theorem strPre_concat_trans (dir name p : String) (h : dir ≠ "")
    (hp : strPre (concatPaths dir name ++ sep) p = true) :
    strPre (dir ++ sep) p = true := by
  unfold strPre at hp ⊢
  unfold concatPaths at hp
  rw [if_neg h] at hp
  have h2 : (dir ++ sep ++ name ++ sep).data
      = (dir ++ sep).data ++ (name ++ sep).data := by
    rw [String.data_append, String.data_append, String.data_append,
      String.data_append]
    simp [List.append_assoc]
  rw [h2] at hp
  exact isPre_of_append _ _ _ hp

mutual
theorem purgeEntry_latch (binID metaPath : String)
    (fails : String → Bool → Bool) (full name : String) (n : FSNode)
    (hfull : strContains full binID = true) :
    ∀ a ∈ (purgeEntry binID metaPath fails full name n).2,
      strContains a.path binID = true :=
  match n with
  | .reg => by
      intro a ha
      by_cases hm : full = metaPath
      · simp [purgeEntry, hm] at ha
      · simp [purgeEntry, hm] at ha
        subst ha
        exact hfull
  | .special => by
      intro a ha
      simp [purgeEntry] at ha
  | .dir es => by
      intro a ha
      by_cases hdot : name = "." ∨ name = ".."
      · simp [purgeEntry, hdot] at ha
      · simp only [purgeEntry, if_neg hdot] at ha
        rw [List.mem_append] at ha
        rcases ha with ha | ha
        · exact purgeEntries_latch binID metaPath fails full es a ha
        · simp at ha
          subst ha
          exact hfull

theorem purgeEntries_latch (binID metaPath : String)
    (fails : String → Bool → Bool) (dir : String) (t : FSEntries) :
    ∀ a ∈ (purgeEntries binID metaPath fails dir t).2,
      strContains a.path binID = true :=
  match t with
  | .nil => by
      intro a ha
      simp [purgeEntries] at ha
  | .cons name node rest => by
      intro a ha
      simp only [purgeEntries] at ha
      rw [List.mem_append] at ha
      rcases ha with ha | ha
      · by_cases hl : strContains (concatPaths dir name) binID = true
        · rw [if_pos hl] at ha
          exact purgeEntry_latch binID metaPath fails
            (concatPaths dir name) name node hl a ha
        · rw [if_neg hl] at ha
          simp at ha
      · exact purgeEntries_latch binID metaPath fails dir rest a ha
end

mutual
theorem purgeEntry_under (binID metaPath : String)
    (fails : String → Bool → Bool) (full name : String) (n : FSNode)
    (hfull : full ≠ "") :
    ∀ a ∈ (purgeEntry binID metaPath fails full name n).2,
      a.path = full ∨ strPre (full ++ sep) a.path = true :=
  match n with
  | .reg => by
      intro a ha
      by_cases hm : full = metaPath
      · simp [purgeEntry, hm] at ha
      · simp [purgeEntry, hm] at ha
        subst ha
        exact Or.inl rfl
  | .special => by
      intro a ha
      simp [purgeEntry] at ha
  | .dir es => by
      intro a ha
      by_cases hdot : name = "." ∨ name = ".."
      · simp [purgeEntry, hdot] at ha
      · simp only [purgeEntry, if_neg hdot] at ha
        rw [List.mem_append] at ha
        rcases ha with ha | ha
        · exact Or.inr (purgeEntries_under binID metaPath fails full es
            hfull a ha)
        · simp at ha
          subst ha
          exact Or.inl rfl

theorem purgeEntries_under (binID metaPath : String)
    (fails : String → Bool → Bool) (dir : String) (t : FSEntries)
    (hdir : dir ≠ "") :
    ∀ a ∈ (purgeEntries binID metaPath fails dir t).2,
      strPre (dir ++ sep) a.path = true :=
  match t with
  | .nil => by
      intro a ha
      simp [purgeEntries] at ha
  | .cons name node rest => by
      intro a ha
      simp only [purgeEntries] at ha
      rw [List.mem_append] at ha
      rcases ha with ha | ha
      · by_cases hl : strContains (concatPaths dir name) binID = true
        · rw [if_pos hl] at ha
          rcases purgeEntry_under binID metaPath fails
              (concatPaths dir name) name node
              (concatPaths_ne_empty dir name hdir) a ha with h | h
          · rw [h]
            exact strPre_concat_self dir name hdir
          · exact strPre_concat_trans dir name a.path hdir h
        · rw [if_neg hl] at ha
          simp at ha
      · exact purgeEntries_under binID metaPath fails dir rest hdir a ha
end

mutual
theorem purgeEntry_meta_safe (binID metaPath : String)
    (fails : String → Bool → Bool) (full name : String) (n : FSNode) :
    ∀ a ∈ (purgeEntry binID metaPath fails full name n).2,
      a.isDir = false → a.path ≠ metaPath :=
  match n with
  | .reg => by
      intro a ha
      by_cases hm : full = metaPath
      · simp [purgeEntry, hm] at ha
      · simp [purgeEntry, hm] at ha
        subst ha
        intro _
        exact hm
  | .special => by
      intro a ha
      simp [purgeEntry] at ha
  | .dir es => by
      intro a ha
      by_cases hdot : name = "." ∨ name = ".."
      · simp [purgeEntry, hdot] at ha
      · simp only [purgeEntry, if_neg hdot] at ha
        rw [List.mem_append] at ha
        rcases ha with ha | ha
        · exact purgeEntry_meta_safe_entries binID metaPath fails full es
            a ha
        · simp at ha
          subst ha
          intro h
          simp at h

theorem purgeEntry_meta_safe_entries (binID metaPath : String)
    (fails : String → Bool → Bool) (dir : String) (t : FSEntries) :
    ∀ a ∈ (purgeEntries binID metaPath fails dir t).2,
      a.isDir = false → a.path ≠ metaPath :=
  match t with
  | .nil => by
      intro a ha
      simp [purgeEntries] at ha
  | .cons name node rest => by
      intro a ha
      simp only [purgeEntries] at ha
      rw [List.mem_append] at ha
      rcases ha with ha | ha
      · by_cases hl : strContains (concatPaths dir name) binID = true
        · rw [if_pos hl] at ha
          exact purgeEntry_meta_safe binID metaPath fails
            (concatPaths dir name) name node a ha
        · rw [if_neg hl] at ha
          simp at ha
      · exact purgeEntry_meta_safe_entries binID metaPath fails dir rest
          a ha
end

mutual
theorem purgeEntry_att_oracle (binID metaPath : String)
    (fails fails2 : String → Bool → Bool) (full name : String)
    (n : FSNode) :
    (purgeEntry binID metaPath fails full name n).2
      = (purgeEntry binID metaPath fails2 full name n).2 :=
  match n with
  | .reg => by
      by_cases hm : full = metaPath <;> simp [purgeEntry, hm]
  | .special => by
      simp [purgeEntry]
  | .dir es => by
      by_cases hdot : name = "." ∨ name = ".."
      · simp [purgeEntry, hdot]
      · simp only [purgeEntry, if_neg hdot]
        rw [purgeEntries_att_oracle binID metaPath fails fails2 full es]

theorem purgeEntries_att_oracle (binID metaPath : String)
    (fails fails2 : String → Bool → Bool) (dir : String) (t : FSEntries) :
    (purgeEntries binID metaPath fails dir t).2
      = (purgeEntries binID metaPath fails2 dir t).2 :=
  match t with
  | .nil => by
      simp [purgeEntries]
  | .cons name node rest => by
      simp only [purgeEntries]
      rw [purgeEntries_att_oracle binID metaPath fails fails2 dir rest]
      by_cases hl : strContains (concatPaths dir name) binID = true
      · rw [if_pos hl, if_pos hl,
          purgeEntry_att_oracle binID metaPath fails fails2
            (concatPaths dir name) name node]
      · rw [if_neg hl, if_neg hl]
end

mutual
theorem purgeEntry_fail_false (binID metaPath : String)
    (fails : String → Bool → Bool) (full name : String) (n : FSNode)
    (hposix : ∀ p, fails p true = true)
    (hex : ∃ a ∈ (purgeEntry binID metaPath fails full name n).2,
      fails a.path a.isDir = true) :
    (purgeEntry binID metaPath fails full name n).1 = false :=
  match n with
  | .reg => by
      obtain ⟨a, ha, haf⟩ := hex
      by_cases hm : full = metaPath
      · simp [purgeEntry, hm] at ha
      · simp [purgeEntry, hm] at ha ⊢
        subst ha
        simp at haf
        exact haf
  | .special => by
      obtain ⟨a, ha, haf⟩ := hex
      simp [purgeEntry] at ha
  | .dir es => by
      obtain ⟨a, ha, haf⟩ := hex
      by_cases hdot : name = "." ∨ name = ".."
      · simp [purgeEntry, hdot] at ha
      · simp only [purgeEntry, if_neg hdot]
        simp [hposix full]

theorem purgeEntries_fail_false (binID metaPath : String)
    (fails : String → Bool → Bool) (dir : String) (t : FSEntries)
    (hposix : ∀ p, fails p true = true)
    (hex : ∃ a ∈ (purgeEntries binID metaPath fails dir t).2,
      fails a.path a.isDir = true) :
    (purgeEntries binID metaPath fails dir t).1 = false :=
  match t with
  | .nil => by
      obtain ⟨a, ha, haf⟩ := hex
      simp [purgeEntries] at ha
  | .cons name node rest => by
      obtain ⟨a, ha, haf⟩ := hex
      simp only [purgeEntries] at ha ⊢
      rw [List.mem_append] at ha
      rcases ha with ha | ha
      · by_cases hl : strContains (concatPaths dir name) binID = true
        · rw [if_pos hl] at ha
          rw [if_pos hl]
          have h1 := purgeEntry_fail_false binID metaPath fails
            (concatPaths dir name) name node hposix ⟨a, ha, haf⟩
          simp [h1]
        · rw [if_neg hl] at ha
          simp at ha
      · have h1 := purgeEntries_fail_false binID metaPath fails dir rest
          hposix ⟨a, ha, haf⟩
        simp [h1]
end

/-- Fixture bin identifier, bin directory, and metadata path. -/
def cBinID : String := "bin"

def cBinPath : String := "root/bin"

def cInfoName : String := "osgearth_cacheinfo.json"

def cMetaPath : String := concatPaths cBinPath cInfoName

def nK1 : String := "k1.osgb"

def nK2 : String := "k2.osgb"

def nSub : String := "sub"

def nDot : String := "."

/-- Fixture bin directory contents: the metadata file, a cache file, a
subdirectory with another cache file, and a `.` entry. -/
def cTree : FSEntries :=
  FSEntries.cons cInfoName FSNode.reg
    (FSEntries.cons nK1 FSNode.reg
      (FSEntries.cons nSub
        (FSNode.dir (FSEntries.cons nK2 FSNode.reg FSEntries.nil))
        (FSEntries.cons nDot (FSNode.dir FSEntries.nil) FSEntries.nil)))

/-- POSIX unlink oracle: unlinking a directory always fails, unlinking a
file succeeds. -/
def posixFails : String → Bool → Bool := fun _ d => d

/-- Oracle under which every unlink succeeds. -/
def noFails : String → Bool → Bool := fun _ _ => false

/-- **C5**: every unlink issued by `clear` names a path that contains the
bin's identifier (the safety latch), lies strictly under the bin's
directory (hence never a file of a sibling bin beneath the shared root),
and is never a regular-file unlink of the bin's metadata file; the set
of unlink calls attempted does not depend on which deletions fail
(best-effort: failures do not stop the loop); under POSIX `unlink`
semantics (unlinking a directory always fails) any failing unlink makes
`clear` return false; and with the validity check failing `clear`
returns false without attempting anything. -/
theorem claim_C5_clear_safety (rw : RW) (dirExists : Bool)
    (fails fails2 : String → Bool → Bool)
    (binID binPath metaPath : String) (t : FSEntries) (v : VState)
    (hbp : binPath ≠ "") :
    (∀ a ∈ (clearBin rw dirExists fails binID binPath metaPath t v).2.2,
      strContains a.path binID = true ∧
      strPre (binPath ++ sep) a.path = true ∧
      (a.isDir = false → a.path ≠ metaPath)) ∧
    ((clearBin rw dirExists fails binID binPath metaPath t v).2.2
      = (clearBin rw dirExists fails2 binID binPath metaPath t v).2.2) ∧
    ((∀ p, fails p true = true) →
      (∃ a ∈ (clearBin rw dirExists fails binID binPath metaPath t v).2.2,
        fails a.path a.isDir = true) →
      (clearBin rw dirExists fails binID binPath metaPath t v).1 = false) ∧
    ((binValidForReading rw.valid dirExists true v).result = false →
      clearBin rw dirExists fails binID binPath metaPath t v
        = (false, (binValidForReading rw.valid dirExists true v).state,
            [])) := by
  cases hv : (binValidForReading rw.valid dirExists true v).result with
  | false =>
      refine ⟨?_, ?_, ?_, ?_⟩
      · intro a ha
        simp [clearBin, hv] at ha
      · simp [clearBin, hv]
      · intro _ hex
        obtain ⟨a, ha, _⟩ := hex
        simp [clearBin, hv] at ha
      · intro _
        simp [clearBin, hv]
  | true =>
      refine ⟨?_, ?_, ?_, ?_⟩
      · intro a ha
        simp only [clearBin, hv] at ha
        simp at ha
        exact ⟨purgeEntries_latch binID metaPath fails binPath t a ha,
          purgeEntries_under binID metaPath fails binPath t hbp a ha,
          purgeEntry_meta_safe_entries binID metaPath fails binPath t a ha⟩
      · simp only [clearBin, hv]
        simp [purgeEntries_att_oracle binID metaPath fails fails2 binPath t]
      · intro hposix hex
        simp only [clearBin, hv] at hex ⊢
        simp at hex ⊢
        obtain ⟨a, ha, haf⟩ := hex
        exact purgeEntries_fail_false binID metaPath fails binPath t
          hposix ⟨a, ha, haf⟩
      · intro h
        exact absurd h (by simp)

/-- Witness for C5 on a concrete bin directory under POSIX unlink
semantics: a directory entry makes `clear` report false, and the unlink
attempts coincide with those of a failure-free run. -/
theorem claim_C5_clear_safety_witness :
    ((clearBin rwId true posixFails cBinID cBinPath cMetaPath cTree
        VState.init).1 = false) ∧
    ((clearBin rwId true posixFails cBinID cBinPath cMetaPath cTree
        VState.init).2.2
      = (clearBin rwId true noFails cBinID cBinPath cMetaPath cTree
          VState.init).2.2) := by
  have h := claim_C5_clear_safety rwId true posixFails noFails cBinID
    cBinPath cMetaPath cTree VState.init (by decide)
  refine ⟨?_, h.2.1⟩
  exact h.2.2.1 (fun p => rfl)
    ⟨⟨concatPaths cBinPath nSub, true⟩, by decide, rfl⟩

/-- One atomic instruction of a gated per-key file operation, as the
operations appear in the source: gate acquisition, the multi-step disk
section (a file write is a truncating open followed by chunk appends, a
delete is an unlink, a read is a non-mutating access), gate release.
The `Gate` primitive itself is not under `src/`; its contract — at most
one holder per key, `acquire` blocks while the key is held — is modelled
from the spec (section 4.1). -/
inductive Instr : Type
  | acquire : Instr
  | truncate : Instr
  | append : Nat → Instr
  | peek : Instr
  | unlink : Instr
  | release : Instr
deriving DecidableEq, Repr

/-- A per-key operation of the bin: a write of encoded content (the
chunk list), a remove, or a gated disk read. -/
inductive Op : Type
  | write : List Nat → Op
  | del : Op
  | look : Op
deriving DecidableEq, Repr

/-- The instruction sequence each operation executes
(`WriteOperation::operator()`, `FileSystemCacheBin::remove`, and the
gated disk section of `readObject`): one gate acquisition around the
whole disk section. -/
def Op.prog : Op → List Instr
  | .write cs =>
      Instr.acquire :: Instr.truncate ::
        (cs.map Instr.append ++ [Instr.release])
  | .del => [Instr.acquire, Instr.unlink, Instr.release]
  | .look => [Instr.acquire, Instr.peek, Instr.release]

/-- Whether the operation mutates the file. -/
def Op.isMut : Op → Bool
  | .look => false
  | _ => true

/-- One thread of control executing one per-key operation: target key,
the operation, the remaining instructions, and whether it currently
holds the gate for its key. -/
structure TState : Type where
  key : String
  op : Op
  rem : List Instr
  holding : Bool
deriving DecidableEq, Repr

/-- A thread that has not started yet. -/
def TState.start (k : String) (op : Op) : TState :=
  ⟨k, op, op.prog, false⟩

/-- Global state: the threads, the gate (list of currently held keys),
and the files (path to content). -/
structure Sys : Type where
  threads : List TState
  gate : List String
  files : List (String × List Nat)
deriving DecidableEq, Repr

/-- Initial system: one thread per requested operation, gate free,
initial files. -/
def initSys (ops : List (String × Op))
    (files0 : List (String × List Nat)) : Sys :=
  ⟨ops.map (fun p => TState.start p.1 p.2), [], files0⟩

/-- Interleaving small-step semantics.  Any thread whose next
instruction is enabled may fire; `acquire` is enabled only while no
thread holds the gate for that key (the spec's Gate contract); disk
instructions are unconditional — nothing but the program structure
protects the file. -/
inductive SysStep : Sys → Sys → Prop
  | acquire (s : Sys) (i : Nat) (h : i < s.threads.length)
      (r : List Instr) :
      (s.threads.get ⟨i, h⟩).rem = Instr.acquire :: r →
      (s.threads.get ⟨i, h⟩).key ∉ s.gate →
      SysStep s
        ⟨s.threads.set i
            { s.threads.get ⟨i, h⟩ with rem := r, holding := true },
          (s.threads.get ⟨i, h⟩).key :: s.gate, s.files⟩
  | truncate (s : Sys) (i : Nat) (h : i < s.threads.length)
      (r : List Instr) :
      (s.threads.get ⟨i, h⟩).rem = Instr.truncate :: r →
      SysStep s
        ⟨s.threads.set i { s.threads.get ⟨i, h⟩ with rem := r },
          s.gate,
          ainsert s.files (s.threads.get ⟨i, h⟩).key []⟩
  | append (s : Sys) (i : Nat) (h : i < s.threads.length)
      (x : Nat) (r : List Instr) :
      (s.threads.get ⟨i, h⟩).rem = Instr.append x :: r →
      SysStep s
        ⟨s.threads.set i { s.threads.get ⟨i, h⟩ with rem := r },
          s.gate,
          ainsert s.files (s.threads.get ⟨i, h⟩).key
            ((alookup s.files (s.threads.get ⟨i, h⟩).key).getD [] ++ [x])⟩
  | peek (s : Sys) (i : Nat) (h : i < s.threads.length)
      (r : List Instr) :
      (s.threads.get ⟨i, h⟩).rem = Instr.peek :: r →
      SysStep s
        ⟨s.threads.set i { s.threads.get ⟨i, h⟩ with rem := r },
          s.gate, s.files⟩
  | unlink (s : Sys) (i : Nat) (h : i < s.threads.length)
      (r : List Instr) :
      (s.threads.get ⟨i, h⟩).rem = Instr.unlink :: r →
      SysStep s
        ⟨s.threads.set i { s.threads.get ⟨i, h⟩ with rem := r },
          s.gate,
          aerase s.files (s.threads.get ⟨i, h⟩).key⟩
  | release (s : Sys) (i : Nat) (h : i < s.threads.length)
      (r : List Instr) :
      (s.threads.get ⟨i, h⟩).rem = Instr.release :: r →
      SysStep s
        ⟨s.threads.set i
            { s.threads.get ⟨i, h⟩ with rem := r, holding := false },
          s.gate.erase (s.threads.get ⟨i, h⟩).key,
          s.files⟩

/-- No thread currently holds the gate of `k` for a mutating operation. -/
def mutFree (s : Sys) (k : String) : Prop :=
  ∀ t ∈ s.threads, t.holding = true → t.key = k → t.op.isMut = false

/-- The file of key `k` holds one clean outcome: the initial content, or
the complete atomic result of exactly one finished mutating operation on
`k` — never a truncated or interleaved mixture. -/
def cleanAtKey (files0 : List (String × List Nat)) (s : Sys)
    (k : String) : Prop :=
  alookup s.files k = alookup files0 k ∨
  ∃ t ∈ s.threads, t.key = k ∧ t.rem = [] ∧
    ((∃ cs, t.op = Op.write cs ∧ alookup s.files k = some cs) ∨
      (t.op = Op.del ∧ alookup s.files k = none))

/-- Consistent configurations of a thread that currently holds its gate:
the remaining program is a genuine suffix of the operation's critical
section, and the file reflects exactly the progress made so far. -/
def HoldCfg (files : List (String × List Nat)) (t : TState) : Prop :=
  match t.op with
  | .write cs =>
      (t.rem = Instr.truncate :: (cs.map Instr.append ++ [Instr.release]))
        ∨
      (∃ j, j ≤ cs.length ∧
        t.rem = (cs.drop j).map Instr.append ++ [Instr.release] ∧
        alookup files t.key = some (cs.take j))
  | .del =>
      t.rem = [Instr.unlink, Instr.release] ∨
      (t.rem = [Instr.release] ∧ alookup files t.key = none)
  | .look =>
      t.rem = [Instr.peek, Instr.release] ∨ t.rem = [Instr.release]

/-- Well-formedness of one thread. -/
def TWf (files : List (String × List Nat)) (t : TState) : Prop :=
  (t.holding = false ∧ (t.rem = t.op.prog ∨ t.rem = [])) ∨
  (t.holding = true ∧ HoldCfg files t)

/-- The global invariant: every thread is well formed, every holder's
key is registered in the gate, at most one thread holds any given key,
and every key free of mutating holders carries a clean outcome. -/
def Inv (files0 : List (String × List Nat)) (s : Sys) : Prop :=
  (∀ t ∈ s.threads, TWf s.files t) ∧
  (∀ t ∈ s.threads, t.holding = true → t.key ∈ s.gate) ∧
  (∀ i j (hi : i < s.threads.length) (hj : j < s.threads.length),
    (s.threads.get ⟨i, hi⟩).holding = true →
    (s.threads.get ⟨j, hj⟩).holding = true →
    (s.threads.get ⟨i, hi⟩).key = (s.threads.get ⟨j, hj⟩).key →
    i = j) ∧
  (∀ k, mutFree s k → cleanAtKey files0 s k)

theorem aget_set_self {α : Type} (l : List α) (i : Nat) (a : α)
    (h : i < (l.set i a).length) : (l.set i a).get ⟨i, h⟩ = a := by
  rw [List.length_set] at h
  simp [List.get_eq_getElem, List.getElem_set]

theorem aget_set_ne {α : Type} (l : List α) (i j : Nat) (a : α)
    (hne : i ≠ j) (h : j < (l.set i a).length) (h2 : j < l.length) :
    (l.set i a).get ⟨j, h⟩ = l.get ⟨j, h2⟩ := by
  simp [List.get_eq_getElem, List.getElem_set, hne]

theorem mem_set_self {α : Type} (l : List α) (i : Nat) (a : α)
    (h : i < l.length) : a ∈ l.set i a := by
  have h2 : i < (l.set i a).length := by simpa using h
  exact List.mem_iff_get.mpr ⟨⟨i, h2⟩, aget_set_self l i a h2⟩

theorem mem_set_of_ne_idx {α : Type} (l : List α) (i j : Nat) (a : α)
    (hj : j < l.length) (hne : i ≠ j) : l.get ⟨j, hj⟩ ∈ l.set i a := by
  have h2 : j < (l.set i a).length := by simpa using hj
  rw [← aget_set_ne l i j a hne h2 hj]
  exact List.get_mem _ _ _

theorem take_snoc (cs : List Nat) (j : Nat) (h : j < cs.length) :
    cs.take j ++ [cs.get ⟨j, h⟩] = cs.take (j + 1) := by
  have h2 := List.take_concat_get cs j h
  rw [List.concat_eq_append] at h2
  rw [List.get_eq_getElem]
  exact h2

theorem drop_cons_get (cs : List Nat) (j : Nat) (h : j < cs.length) :
    cs.drop j = cs.get ⟨j, h⟩ :: cs.drop (j + 1) := by
  rw [List.get_eq_getElem]
  exact List.drop_eq_getElem_cons h

/-- A thread's well-formedness only looks at the file of its own key. -/
theorem TWf_of_file_eq (files files' : List (String × List Nat))
    (t : TState) (hf : alookup files' t.key = alookup files t.key)
    (hwf : TWf files t) : TWf files' t := by
  obtain ⟨tk, top, trem, th⟩ := t
  rcases hwf with h | ⟨hh, hc⟩
  · exact Or.inl h
  · refine Or.inr ⟨hh, ?_⟩
    simp only [HoldCfg] at hc ⊢
    cases top with
    | write cs =>
        rcases hc with hc | ⟨j, hj, hr, hl⟩
        · exact Or.inl hc
        · exact Or.inr ⟨j, hj, hr, by rw [hf]; exact hl⟩
    | del =>
        rcases hc with hc | ⟨hr, hl⟩
        · exact Or.inl hc
        · exact Or.inr ⟨hr, by rw [hf]; exact hl⟩
    | look => exact hc

/-- A clean outcome survives a step that neither changes the file of the
key nor touches any finished thread. -/
theorem cleanAtKey_of_set (files0 : List (String × List Nat)) (s : Sys)
    (i : Nat) (h : i < s.threads.length) (t2 : TState)
    (gate2 : List String) (files2 : List (String × List Nat)) (k : String)
    (hfile : alookup files2 k = alookup s.files k)
    (hrem : (s.threads.get ⟨i, h⟩).rem ≠ [])
    (hc : cleanAtKey files0 s k) :
    cleanAtKey files0 ⟨s.threads.set i t2, gate2, files2⟩ k := by
  rcases hc with hc | ⟨t3, ht3, hkey, hrem3, hout⟩
  · exact Or.inl (hfile.trans hc)
  · obtain ⟨⟨j, hj⟩, hget⟩ := List.mem_iff_get.mp ht3
    have hji : i ≠ j := by
      intro hij
      subst hij
      rw [hget] at hrem
      exact hrem hrem3
    refine Or.inr ⟨t3, ?_, hkey, hrem3, ?_⟩
    · show t3 ∈ s.threads.set i t2
      rw [← hget]
      exact mem_set_of_ne_idx s.threads i j t2 hj hji
    · rcases hout with ⟨cs, hop, hl⟩ | ⟨hop, hl⟩
      · exact Or.inl ⟨cs, hop, hfile.trans hl⟩
      · exact Or.inr ⟨hop, hfile.trans hl⟩

/-- The invariant holds initially. -/
theorem Inv_init (ops : List (String × Op))
    (files0 : List (String × List Nat)) :
    Inv files0 (initSys ops files0) := by
  refine ⟨?_, ?_, ?_, ?_⟩
  · intro t ht
    simp [initSys] at ht
    obtain ⟨k, op, _, hstart⟩ := ht
    rw [← hstart]
    exact Or.inl ⟨rfl, Or.inl rfl⟩
  · intro t ht hh
    simp [initSys] at ht
    obtain ⟨k, op, _, hstart⟩ := ht
    rw [← hstart] at hh
    simp [TState.start] at hh
  · intro i j hi hj hhi hhj _
    exfalso
    have hfalse : ((initSys ops files0).threads.get ⟨i, hi⟩).holding
        = false := by
      simp [initSys, List.get_eq_getElem, TState.start]
    rw [hhi] at hfalse
    exact absurd hfalse (by decide)
  · intro k _
    exact Or.inl rfl

theorem TWf_rem_acquire (files : List (String × List Nat)) (t : TState)
    (r : List Instr) (hwf : TWf files t)
    (hrem : t.rem = Instr.acquire :: r) :
    t.holding = false ∧ t.rem = t.op.prog := by
  obtain ⟨tk, top, trem, th⟩ := t
  subst hrem
  rcases hwf with ⟨hh, hp | hnil⟩ | ⟨hh, hc⟩
  · exact ⟨hh, hp⟩
  · simp at hnil
  · exfalso
    simp only [HoldCfg] at hc
    cases top with
    | write cs =>
        rcases hc with hc | ⟨j, hj, hr, hl⟩
        · simp at hc
        · cases hdj : cs.drop j with
          | nil => rw [hdj] at hr; simp at hr
          | cons y ys => rw [hdj] at hr; simp at hr
    | del =>
        rcases hc with hc | ⟨hr, hl⟩
        · simp at hc
        · simp at hr
    | look =>
        rcases hc with hc | hc <;> simp at hc

theorem TWf_rem_truncate (files : List (String × List Nat)) (t : TState)
    (r : List Instr) (hwf : TWf files t)
    (hrem : t.rem = Instr.truncate :: r) :
    t.holding = true ∧
      ∃ cs, t.op = Op.write cs ∧
        r = cs.map Instr.append ++ [Instr.release] := by
  obtain ⟨tk, top, trem, th⟩ := t
  subst hrem
  rcases hwf with ⟨hh, hp | hnil⟩ | ⟨hh, hc⟩
  · exfalso
    simp only [Op.prog] at hp
    cases top <;> simp at hp
  · simp at hnil
  · refine ⟨hh, ?_⟩
    simp only [HoldCfg] at hc
    cases top with
    | write cs =>
        rcases hc with hc | ⟨j, hj, hr, hl⟩
        · simp at hc
          exact ⟨cs, rfl, hc⟩
        · exfalso
          cases hdj : cs.drop j with
          | nil => rw [hdj] at hr; simp at hr
          | cons y ys => rw [hdj] at hr; simp at hr
    | del =>
        exfalso
        rcases hc with hc | ⟨hr, hl⟩
        · simp at hc
        · simp at hr
    | look =>
        exfalso
        rcases hc with hc | hc <;> simp at hc

theorem TWf_rem_append (files : List (String × List Nat)) (t : TState)
    (x : Nat) (r : List Instr) (hwf : TWf files t)
    (hrem : t.rem = Instr.append x :: r) :
    t.holding = true ∧
      ∃ cs j, ∃ hj : j < cs.length,
        t.op = Op.write cs ∧ cs.get ⟨j, hj⟩ = x ∧
        r = (cs.drop (j + 1)).map Instr.append ++ [Instr.release] ∧
        alookup files t.key = some (cs.take j) := by
  obtain ⟨tk, top, trem, th⟩ := t
  subst hrem
  rcases hwf with ⟨hh, hp | hnil⟩ | ⟨hh, hc⟩
  · exfalso
    simp only [Op.prog] at hp
    cases top <;> simp at hp
  · simp at hnil
  · refine ⟨hh, ?_⟩
    simp only [HoldCfg] at hc
    cases top with
    | write cs =>
        rcases hc with hc | ⟨j, hj, hr, hl⟩
        · exfalso
          simp at hc
        · cases hdj : cs.drop j with
          | nil => exfalso; rw [hdj] at hr; simp at hr
          | cons y ys =>
              rw [hdj] at hr
              simp only [List.map_cons, List.cons_append,
                List.cons.injEq] at hr
              have hjlt : j < cs.length := by
                by_contra hge
                push_neg at hge
                rw [List.drop_eq_nil_of_le hge] at hdj
                exact List.noConfusion hdj
              have hdg := drop_cons_get cs j hjlt
              rw [hdj] at hdg
              injection hdg with hy hys
              obtain ⟨hr1, hr2⟩ := hr
              injection hr1 with hyx
              refine ⟨cs, j, hjlt, rfl, ?_, ?_, hl⟩
              · rw [← hy]
                exact hyx.symm
              · rw [hr2, hys]
    | del =>
        exfalso
        rcases hc with hc | ⟨hr, hl⟩
        · simp at hc
        · simp at hr
    | look =>
        exfalso
        rcases hc with hc | hc <;> simp at hc

theorem TWf_rem_peek (files : List (String × List Nat)) (t : TState)
    (r : List Instr) (hwf : TWf files t)
    (hrem : t.rem = Instr.peek :: r) :
    t.holding = true ∧ t.op = Op.look ∧ r = [Instr.release] := by
  obtain ⟨tk, top, trem, th⟩ := t
  subst hrem
  rcases hwf with ⟨hh, hp | hnil⟩ | ⟨hh, hc⟩
  · exfalso
    simp only [Op.prog] at hp
    cases top <;> simp at hp
  · simp at hnil
  · refine ⟨hh, ?_⟩
    simp only [HoldCfg] at hc
    cases top with
    | write cs =>
        exfalso
        rcases hc with hc | ⟨j, hj, hr, hl⟩
        · simp at hc
        · cases hdj : cs.drop j with
          | nil => rw [hdj] at hr; simp at hr
          | cons y ys => rw [hdj] at hr; simp at hr
    | del =>
        exfalso
        rcases hc with hc | ⟨hr, hl⟩
        · simp at hc
        · simp at hr
    | look =>
        rcases hc with hc | hc
        · simp at hc
          exact ⟨rfl, hc⟩
        · exfalso; simp at hc

theorem TWf_rem_unlink (files : List (String × List Nat)) (t : TState)
    (r : List Instr) (hwf : TWf files t)
    (hrem : t.rem = Instr.unlink :: r) :
    t.holding = true ∧ t.op = Op.del ∧ r = [Instr.release] := by
  obtain ⟨tk, top, trem, th⟩ := t
  subst hrem
  rcases hwf with ⟨hh, hp | hnil⟩ | ⟨hh, hc⟩
  · exfalso
    simp only [Op.prog] at hp
    cases top <;> simp at hp
  · simp at hnil
  · refine ⟨hh, ?_⟩
    simp only [HoldCfg] at hc
    cases top with
    | write cs =>
        exfalso
        rcases hc with hc | ⟨j, hj, hr, hl⟩
        · simp at hc
        · cases hdj : cs.drop j with
          | nil => rw [hdj] at hr; simp at hr
          | cons y ys => rw [hdj] at hr; simp at hr
    | del =>
        rcases hc with hc | ⟨hr, hl⟩
        · simp at hc
          exact ⟨rfl, hc⟩
        · exfalso; simp at hr
    | look =>
        exfalso
        rcases hc with hc | hc <;> simp at hc

theorem TWf_rem_release (files : List (String × List Nat)) (t : TState)
    (r : List Instr) (hwf : TWf files t)
    (hrem : t.rem = Instr.release :: r) :
    t.holding = true ∧ r = [] ∧
      (t.op = Op.look ∨
        (∃ cs, t.op = Op.write cs ∧ alookup files t.key = some cs) ∨
        (t.op = Op.del ∧ alookup files t.key = none)) := by
  obtain ⟨tk, top, trem, th⟩ := t
  subst hrem
  rcases hwf with ⟨hh, hp | hnil⟩ | ⟨hh, hc⟩
  · exfalso
    simp only [Op.prog] at hp
    cases top <;> simp at hp
  · simp at hnil
  · refine ⟨hh, ?_⟩
    simp only [HoldCfg] at hc
    cases top with
    | write cs =>
        rcases hc with hc | ⟨j, hj, hr, hl⟩
        · exfalso; simp at hc
        · cases hdj : cs.drop j with
          | cons y ys => exfalso; rw [hdj] at hr; simp at hr
          | nil =>
              rw [hdj] at hr
              simp only [List.map_nil, List.nil_append,
                List.cons.injEq] at hr
              have hjge : cs.length ≤ j := by
                by_contra hlt
                push_neg at hlt
                rw [drop_cons_get cs j hlt] at hdj
                exact List.noConfusion hdj
              have hje : j = cs.length := Nat.le_antisymm hj hjge
              refine ⟨hr.2, Or.inr (Or.inl ⟨cs, rfl, ?_⟩)⟩
              rw [hl, hje, List.take_length]
    | del =>
        rcases hc with hc | ⟨hr, hl⟩
        · exfalso; simp at hc
        · simp only [List.cons.injEq] at hr
          exact ⟨hr.2, Or.inr (Or.inr ⟨rfl, hl⟩)⟩
    | look =>
        rcases hc with hc | hc
        · exfalso; simp at hc
        · simp only [List.cons.injEq] at hc
          exact ⟨hc.2, Or.inl rfl⟩

/-- A thread that does not hold its gate is well formed regardless of
the files. -/
theorem TWf_of_not_holding (files files2 : List (String × List Nat))
    (t : TState) (hh : t.holding = false) (hwf : TWf files t) :
    TWf files2 t := by
  rcases hwf with ⟨hh2, hp⟩ | ⟨hh2, _⟩
  · exact Or.inl ⟨hh2, hp⟩
  · rw [hh] at hh2
    exact absurd hh2 (by decide)

/-- Transfer `mutFree` from the post-state back to the pre-state, for
steps that replace the thread at `i` by one with the same key and
operation and at least as much holding. -/
theorem mutFree_back (s : Sys) (i : Nat) (h : i < s.threads.length)
    (t2 : TState) (gate2 : List String)
    (files2 : List (String × List Nat))
    (hkey : t2.key = (s.threads.get ⟨i, h⟩).key)
    (hop : t2.op = (s.threads.get ⟨i, h⟩).op)
    (hhold : (s.threads.get ⟨i, h⟩).holding = true → t2.holding = true)
    (k : String)
    (hmf : mutFree ⟨s.threads.set i t2, gate2, files2⟩ k) :
    mutFree s k := by
  intro t3 ht3 hh3 hk3
  obtain ⟨⟨j, hj⟩, hget⟩ := List.mem_iff_get.mp ht3
  by_cases hji : i = j
  · subst hji
    rw [← hget] at hh3 hk3 ⊢
    have ht2mem : t2 ∈ s.threads.set i t2 := mem_set_self _ _ _ h
    have h5 := hmf t2 ht2mem (hhold hh3) (hkey.trans hk3)
    rw [hop] at h5
    exact h5
  · have ht3mem : t3 ∈ s.threads.set i t2 := by
      rw [← hget]
      exact mem_set_of_ne_idx s.threads i j t2 hj hji
    exact hmf t3 ht3mem hh3 hk3

/-- Well-formedness of all threads is preserved when the executor holds
its gate, its own new state is well formed, and no other key's file
changed. -/
theorem TWf_all_set (s : Sys) (i : Nat) (h : i < s.threads.length)
    (t2 : TState) (files2 : List (String × List Nat))
    (hinv1 : ∀ t ∈ s.threads, TWf s.files t)
    (huniq : ∀ i2 j2 (hi2 : i2 < s.threads.length)
      (hj2 : j2 < s.threads.length),
      (s.threads.get ⟨i2, hi2⟩).holding = true →
      (s.threads.get ⟨j2, hj2⟩).holding = true →
      (s.threads.get ⟨i2, hi2⟩).key = (s.threads.get ⟨j2, hj2⟩).key →
      i2 = j2)
    (hexec : (s.threads.get ⟨i, h⟩).holding = true)
    (hfiles : ∀ k2, k2 ≠ (s.threads.get ⟨i, h⟩).key →
      alookup files2 k2 = alookup s.files k2)
    (hwf2 : TWf files2 t2) :
    ∀ t3 ∈ s.threads.set i t2, TWf files2 t3 := by
  intro t3 ht3
  obtain ⟨⟨j, hj⟩, hget⟩ := List.mem_iff_get.mp ht3
  have hj2 : j < s.threads.length := by
    rw [List.length_set] at hj
    exact hj
  by_cases hji : i = j
  · subst hji
    rw [← hget, aget_set_self s.threads i t2 hj]
    exact hwf2
  · rw [← hget, aget_set_ne s.threads i j t2 hji hj hj2]
    have hwf3 := hinv1 _ (List.get_mem s.threads j hj2)
    by_cases hh3 : (s.threads.get ⟨j, hj2⟩).holding = true
    · by_cases hk3 : (s.threads.get ⟨j, hj2⟩).key
          = (s.threads.get ⟨i, h⟩).key
      · exact absurd (huniq j i hj2 h hh3 hexec hk3) (Ne.symm hji)
      · exact TWf_of_file_eq s.files files2 _ (hfiles _ hk3) hwf3
    · exact TWf_of_not_holding s.files files2 _
        (Bool.not_eq_true _ ▸ hh3) hwf3

theorem HoldCfg_write_start (files : List (String × List Nat))
    (t : TState) (cs : List Nat) (hop : t.op = Op.write cs)
    (hrem : t.rem
      = Instr.truncate :: (cs.map Instr.append ++ [Instr.release])) :
    HoldCfg files t := by
  obtain ⟨tk, top, trem, th⟩ := t
  subst hop
  exact Or.inl hrem

theorem HoldCfg_write_stage (files : List (String × List Nat))
    (t : TState) (cs : List Nat) (j : Nat) (hop : t.op = Op.write cs)
    (hj : j ≤ cs.length)
    (hrem : t.rem = (cs.drop j).map Instr.append ++ [Instr.release])
    (hl : alookup files t.key = some (cs.take j)) : HoldCfg files t := by
  obtain ⟨tk, top, trem, th⟩ := t
  subst hop
  exact Or.inr ⟨j, hj, hrem, hl⟩

theorem HoldCfg_del_start (files : List (String × List Nat))
    (t : TState) (hop : t.op = Op.del)
    (hrem : t.rem = [Instr.unlink, Instr.release]) : HoldCfg files t := by
  obtain ⟨tk, top, trem, th⟩ := t
  subst hop
  exact Or.inl hrem

theorem HoldCfg_del_done (files : List (String × List Nat))
    (t : TState) (hop : t.op = Op.del) (hrem : t.rem = [Instr.release])
    (hl : alookup files t.key = none) : HoldCfg files t := by
  obtain ⟨tk, top, trem, th⟩ := t
  subst hop
  exact Or.inr ⟨hrem, hl⟩

theorem HoldCfg_look_start (files : List (String × List Nat))
    (t : TState) (hop : t.op = Op.look)
    (hrem : t.rem = [Instr.peek, Instr.release]) : HoldCfg files t := by
  obtain ⟨tk, top, trem, th⟩ := t
  subst hop
  exact Or.inl hrem

theorem HoldCfg_look_done (files : List (String × List Nat))
    (t : TState) (hop : t.op = Op.look) (hrem : t.rem = [Instr.release]) :
    HoldCfg files t := by
  obtain ⟨tk, top, trem, th⟩ := t
  subst hop
  exact Or.inr hrem

theorem TWf_all_set_filesame (s : Sys) (i : Nat) (t2 : TState)
    (hwf : ∀ t ∈ s.threads, TWf s.files t) (hwf2 : TWf s.files t2) :
    ∀ t3 ∈ s.threads.set i t2, TWf s.files t3 := by
  intro t3 ht3
  rcases List.mem_or_eq_of_mem_set ht3 with h3 | h3
  · exact hwf t3 h3
  · rw [h3]
    exact hwf2

theorem gate_set (s : Sys) (i : Nat) (t2 : TState) (gate2 : List String)
    (hexec : t2.holding = true → t2.key ∈ gate2)
    (hold : ∀ j (hj : j < s.threads.length), i ≠ j →
      (s.threads.get ⟨j, hj⟩).holding = true →
      (s.threads.get ⟨j, hj⟩).key ∈ gate2) :
    ∀ t3 ∈ s.threads.set i t2, t3.holding = true → t3.key ∈ gate2 := by
  intro t3 ht3 hh3
  obtain ⟨⟨j, hj⟩, hget⟩ := List.mem_iff_get.mp ht3
  have hj2 : j < s.threads.length := by
    rw [List.length_set] at hj
    exact hj
  by_cases hji : i = j
  · subst hji
    have e1 := aget_set_self s.threads i t2 hj
    rw [e1] at hget
    rw [← hget] at hh3 ⊢
    exact hexec hh3
  · have e1 := aget_set_ne s.threads i j t2 hji hj hj2
    rw [e1] at hget
    rw [← hget] at hh3 ⊢
    exact hold j hj2 hji hh3

theorem uniq_set (s : Sys) (i : Nat) (h : i < s.threads.length)
    (t2 : TState)
    (huniq : ∀ i2 j2 (hi2 : i2 < s.threads.length)
      (hj2 : j2 < s.threads.length),
      (s.threads.get ⟨i2, hi2⟩).holding = true →
      (s.threads.get ⟨j2, hj2⟩).holding = true →
      (s.threads.get ⟨i2, hi2⟩).key = (s.threads.get ⟨j2, hj2⟩).key →
      i2 = j2)
    (hgate : ∀ t ∈ s.threads, t.holding = true → t.key ∈ s.gate)
    (hsame : t2.key = (s.threads.get ⟨i, h⟩).key)
    (hcase : (t2.holding = true → (s.threads.get ⟨i, h⟩).holding = true) ∨
      (s.threads.get ⟨i, h⟩).key ∉ s.gate) :
    ∀ i1 j1 (hi1 : i1 < (s.threads.set i t2).length)
      (hj1 : j1 < (s.threads.set i t2).length),
      ((s.threads.set i t2).get ⟨i1, hi1⟩).holding = true →
      ((s.threads.set i t2).get ⟨j1, hj1⟩).holding = true →
      ((s.threads.set i t2).get ⟨i1, hi1⟩).key
        = ((s.threads.set i t2).get ⟨j1, hj1⟩).key →
      i1 = j1 := by
  intro i1 j1 hi1 hj1 hh1 hh2 hk12
  have hi1b : i1 < s.threads.length := by
    rw [List.length_set] at hi1
    exact hi1
  have hj1b : j1 < s.threads.length := by
    rw [List.length_set] at hj1
    exact hj1
  by_cases h1 : i = i1 <;> by_cases h2 : i = j1
  · rw [← h1, ← h2]
  · exfalso
    subst h1
    have e1 := aget_set_self s.threads i t2 hi1
    have e2 := aget_set_ne s.threads i j1 t2 h2 hj1 hj1b
    rw [e1, e2] at hk12
    rw [e2] at hh2
    rw [e1] at hh1
    rcases hcase with himp | hfree
    · have hh0 := himp hh1
      have := huniq i j1 h hj1b hh0 hh2 (hsame.symm.trans hk12)
      exact h2 this
    · apply hfree
      rw [hsame] at hk12
      rw [hk12]
      exact hgate _ (List.get_mem s.threads j1 hj1b) hh2
  · exfalso
    subst h2
    have e1 := aget_set_self s.threads i t2 hj1
    have e2 := aget_set_ne s.threads i i1 t2 h1 hi1 hi1b
    rw [e2, e1] at hk12
    rw [e2] at hh1
    rw [e1] at hh2
    rcases hcase with himp | hfree
    · have hh0 := himp hh2
      have := huniq i1 i hi1b h hh1 hh0 (hk12.trans hsame)
      exact h1 this.symm
    · apply hfree
      rw [hsame] at hk12
      rw [← hk12]
      exact hgate _ (List.get_mem s.threads i1 hi1b) hh1
  · have e1 := aget_set_ne s.threads i i1 t2 h1 hi1 hi1b
    have e2 := aget_set_ne s.threads i j1 t2 h2 hj1 hj1b
    rw [e1] at hh1
    rw [e2] at hh2
    rw [e1, e2] at hk12
    exact huniq i1 j1 hi1b hj1b hh1 hh2 hk12

theorem Inv_step_acquire (files0 : List (String × List Nat)) (s : Sys)
    (i : Nat) (h : i < s.threads.length) (r : List Instr)
    (hrem : (s.threads.get ⟨i, h⟩).rem = Instr.acquire :: r)
    (hfree : (s.threads.get ⟨i, h⟩).key ∉ s.gate)
    (hinv : Inv files0 s) :
    Inv files0
      ⟨s.threads.set i
          { s.threads.get ⟨i, h⟩ with rem := r, holding := true },
        (s.threads.get ⟨i, h⟩).key :: s.gate, s.files⟩ := by
  obtain ⟨hwf, hgate, huniq, hclean⟩ := hinv
  have hmem : s.threads.get ⟨i, h⟩ ∈ s.threads := List.get_mem s.threads i h
  have hta := TWf_rem_acquire s.files _ r (hwf _ hmem) hrem
  have hpr : Instr.acquire :: r = (s.threads.get ⟨i, h⟩).op.prog :=
    hrem.symm.trans hta.2
  have hwf2 : TWf s.files
      { s.threads.get ⟨i, h⟩ with rem := r, holding := true } := by
    refine Or.inr ⟨rfl, ?_⟩
    cases hopc : (s.threads.get ⟨i, h⟩).op with
    | write cs =>
        rw [hopc] at hpr
        simp only [Op.prog, List.cons.injEq] at hpr
        exact HoldCfg_write_start s.files _ cs hopc hpr.2
    | del =>
        rw [hopc] at hpr
        simp only [Op.prog, List.cons.injEq] at hpr
        exact HoldCfg_del_start s.files _ hopc hpr.2
    | look =>
        rw [hopc] at hpr
        simp only [Op.prog, List.cons.injEq] at hpr
        exact HoldCfg_look_start s.files _ hopc hpr.2
  refine ⟨?_, ?_, ?_, ?_⟩
  · exact TWf_all_set_filesame s i _ hwf hwf2
  · refine gate_set s i _ _ ?_ ?_
    · intro _
      exact List.mem_cons_self _ _
    · intro j hj hji hh3
      exact List.mem_cons_of_mem _
        (hgate _ (List.get_mem s.threads j hj) hh3)
  · exact uniq_set s i h _ huniq hgate rfl (Or.inr hfree)
  · intro k hmf
    have hmfs : mutFree s k :=
      mutFree_back s i h
        { s.threads.get ⟨i, h⟩ with rem := r, holding := true }
        ((s.threads.get ⟨i, h⟩).key :: s.gate) s.files rfl rfl
        (fun _ => rfl) k hmf
    refine cleanAtKey_of_set files0 s i h _ _ _ k rfl ?_ (hclean k hmfs)
    rw [hrem]
    simp

theorem mutFree_back_ne (s : Sys) (i : Nat) (h : i < s.threads.length)
    (t2 : TState) (gate2 : List String)
    (files2 : List (String × List Nat)) (k : String)
    (hk : k ≠ (s.threads.get ⟨i, h⟩).key)
    (hmf : mutFree ⟨s.threads.set i t2, gate2, files2⟩ k) :
    mutFree s k := by
  intro t3 ht3 hh3 hk3
  obtain ⟨⟨j, hj⟩, hget⟩ := List.mem_iff_get.mp ht3
  by_cases hji : i = j
  · exfalso
    subst hji
    rw [← hget] at hk3
    exact hk (hk3.symm)
  · have ht3m : t3 ∈ s.threads.set i t2 := by
      rw [← hget]
      exact mem_set_of_ne_idx s.threads i j t2 hj hji
    exact hmf t3 ht3m hh3 hk3

theorem Inv_step_truncate (files0 : List (String × List Nat)) (s : Sys)
    (i : Nat) (h : i < s.threads.length) (r : List Instr)
    (hrem : (s.threads.get ⟨i, h⟩).rem = Instr.truncate :: r)
    (hinv : Inv files0 s) :
    Inv files0
      ⟨s.threads.set i { s.threads.get ⟨i, h⟩ with rem := r },
        s.gate, ainsert s.files (s.threads.get ⟨i, h⟩).key []⟩ := by
  obtain ⟨hwf, hgate, huniq, hclean⟩ := hinv
  have hmem := List.get_mem s.threads i h
  obtain ⟨hhold, cs, hop, hr⟩ :=
    TWf_rem_truncate s.files _ r (hwf _ hmem) hrem
  have hwf2 : TWf (ainsert s.files (s.threads.get ⟨i, h⟩).key [])
      { s.threads.get ⟨i, h⟩ with rem := r } := by
    refine Or.inr ⟨hhold, ?_⟩
    refine HoldCfg_write_stage _ _ cs 0 hop (Nat.zero_le _) ?_ ?_
    · rw [List.drop_zero]
      exact hr
    · rw [List.take_zero]
      exact alookup_ainsert_self s.files _ []
  refine ⟨?_, ?_, ?_, ?_⟩
  · refine TWf_all_set s i h _ _ hwf huniq hhold ?_ hwf2
    intro k2 hk2
    exact alookup_ainsert_ne s.files _ k2 [] (Ne.symm hk2)
  · refine gate_set s i _ s.gate ?_ ?_
    · intro hh2
      exact hgate (s.threads.get ⟨i, h⟩) hmem hh2
    · intro j hj hji hh3
      exact hgate _ (List.get_mem s.threads j hj) hh3
  · exact uniq_set s i h _ huniq hgate rfl (Or.inl (fun hh => hh))
  · intro k hmf
    by_cases hk : k = (s.threads.get ⟨i, h⟩).key
    · exfalso
      have ht2mem :=
        mem_set_self s.threads i { s.threads.get ⟨i, h⟩ with rem := r } h
      have hmut := hmf _ ht2mem hhold hk.symm
      rw [show ({ s.threads.get ⟨i, h⟩ with rem := r } : TState).op
          = (s.threads.get ⟨i, h⟩).op from rfl, hop] at hmut
      simp [Op.isMut] at hmut
    · have hmfs : mutFree s k :=
        mutFree_back_ne s i h _ _ _ k hk hmf
      refine cleanAtKey_of_set files0 s i h _ _ _ k ?_ ?_ (hclean k hmfs)
      · exact alookup_ainsert_ne s.files _ k [] (fun he => hk he.symm)
      · rw [hrem]
        simp

theorem Inv_step_append (files0 : List (String × List Nat)) (s : Sys)
    (i : Nat) (h : i < s.threads.length) (x : Nat) (r : List Instr)
    (hrem : (s.threads.get ⟨i, h⟩).rem = Instr.append x :: r)
    (hinv : Inv files0 s) :
    Inv files0
      ⟨s.threads.set i { s.threads.get ⟨i, h⟩ with rem := r },
        s.gate,
        ainsert s.files (s.threads.get ⟨i, h⟩).key
          ((alookup s.files (s.threads.get ⟨i, h⟩).key).getD []
            ++ [x])⟩ := by
  obtain ⟨hwf, hgate, huniq, hclean⟩ := hinv
  have hmem := List.get_mem s.threads i h
  obtain ⟨hhold, cs, j, hjlt, hop, hx, hr, hl⟩ :=
    TWf_rem_append s.files _ x r (hwf _ hmem) hrem
  have hwf2 : TWf
      (ainsert s.files (s.threads.get ⟨i, h⟩).key
        ((alookup s.files (s.threads.get ⟨i, h⟩).key).getD [] ++ [x]))
      { s.threads.get ⟨i, h⟩ with rem := r } := by
    refine Or.inr ⟨hhold, ?_⟩
    refine HoldCfg_write_stage _ _ cs (j + 1) hop hjlt ?_ ?_
    · exact hr
    · rw [hl]
      have hts := take_snoc cs j hjlt
      rw [hx] at hts
      simp only [Option.getD]
      rw [hts]
      exact alookup_ainsert_self s.files _ _
  refine ⟨?_, ?_, ?_, ?_⟩
  · refine TWf_all_set s i h _ _ hwf huniq hhold ?_ hwf2
    intro k2 hk2
    exact alookup_ainsert_ne s.files _ k2 _ (Ne.symm hk2)
  · refine gate_set s i _ s.gate ?_ ?_
    · intro hh2
      exact hgate (s.threads.get ⟨i, h⟩) hmem hh2
    · intro j2 hj2 hji hh3
      exact hgate _ (List.get_mem s.threads j2 hj2) hh3
  · exact uniq_set s i h _ huniq hgate rfl (Or.inl (fun hh => hh))
  · intro k hmf
    by_cases hk : k = (s.threads.get ⟨i, h⟩).key
    · exfalso
      have ht2mem :=
        mem_set_self s.threads i { s.threads.get ⟨i, h⟩ with rem := r } h
      have hmut := hmf _ ht2mem hhold hk.symm
      rw [show ({ s.threads.get ⟨i, h⟩ with rem := r } : TState).op
          = (s.threads.get ⟨i, h⟩).op from rfl, hop] at hmut
      simp [Op.isMut] at hmut
    · have hmfs : mutFree s k :=
        mutFree_back_ne s i h _ _ _ k hk hmf
      refine cleanAtKey_of_set files0 s i h _ _ _ k ?_ ?_ (hclean k hmfs)
      · exact alookup_ainsert_ne s.files _ k _ (fun he => hk he.symm)
      · rw [hrem]
        simp

theorem Inv_step_peek (files0 : List (String × List Nat)) (s : Sys)
    (i : Nat) (h : i < s.threads.length) (r : List Instr)
    (hrem : (s.threads.get ⟨i, h⟩).rem = Instr.peek :: r)
    (hinv : Inv files0 s) :
    Inv files0
      ⟨s.threads.set i { s.threads.get ⟨i, h⟩ with rem := r },
        s.gate, s.files⟩ := by
  obtain ⟨hwf, hgate, huniq, hclean⟩ := hinv
  have hmem := List.get_mem s.threads i h
  obtain ⟨hhold, hop, hr⟩ :=
    TWf_rem_peek s.files _ r (hwf _ hmem) hrem
  have hwf2 : TWf s.files { s.threads.get ⟨i, h⟩ with rem := r } := by
    refine Or.inr ⟨hhold, ?_⟩
    refine HoldCfg_look_done s.files _ hop ?_
    exact hr
  refine ⟨?_, ?_, ?_, ?_⟩
  · exact TWf_all_set_filesame s i _ hwf hwf2
  · refine gate_set s i _ s.gate ?_ ?_
    · intro hh2
      exact hgate (s.threads.get ⟨i, h⟩) hmem hh2
    · intro j hj hji hh3
      exact hgate _ (List.get_mem s.threads j hj) hh3
  · exact uniq_set s i h _ huniq hgate rfl (Or.inl (fun hh => hh))
  · intro k hmf
    have hmfs : mutFree s k :=
      mutFree_back s i h { s.threads.get ⟨i, h⟩ with rem := r }
        s.gate s.files rfl rfl (fun hh => hh) k hmf
    refine cleanAtKey_of_set files0 s i h _ _ _ k rfl ?_ (hclean k hmfs)
    rw [hrem]
    simp

theorem Inv_step_unlink (files0 : List (String × List Nat)) (s : Sys)
    (i : Nat) (h : i < s.threads.length) (r : List Instr)
    (hrem : (s.threads.get ⟨i, h⟩).rem = Instr.unlink :: r)
    (hinv : Inv files0 s) :
    Inv files0
      ⟨s.threads.set i { s.threads.get ⟨i, h⟩ with rem := r },
        s.gate, aerase s.files (s.threads.get ⟨i, h⟩).key⟩ := by
  obtain ⟨hwf, hgate, huniq, hclean⟩ := hinv
  have hmem := List.get_mem s.threads i h
  obtain ⟨hhold, hop, hr⟩ :=
    TWf_rem_unlink s.files _ r (hwf _ hmem) hrem
  have hwf2 : TWf (aerase s.files (s.threads.get ⟨i, h⟩).key)
      { s.threads.get ⟨i, h⟩ with rem := r } := by
    refine Or.inr ⟨hhold, ?_⟩
    refine HoldCfg_del_done _ _ hop hr ?_
    exact alookup_aerase_self s.files _
  refine ⟨?_, ?_, ?_, ?_⟩
  · refine TWf_all_set s i h _ _ hwf huniq hhold ?_ hwf2
    intro k2 hk2
    exact alookup_aerase_ne s.files _ k2 (Ne.symm hk2)
  · refine gate_set s i _ s.gate ?_ ?_
    · intro hh2
      exact hgate (s.threads.get ⟨i, h⟩) hmem hh2
    · intro j hj hji hh3
      exact hgate _ (List.get_mem s.threads j hj) hh3
  · exact uniq_set s i h _ huniq hgate rfl (Or.inl (fun hh => hh))
  · intro k hmf
    by_cases hk : k = (s.threads.get ⟨i, h⟩).key
    · exfalso
      have ht2mem :=
        mem_set_self s.threads i { s.threads.get ⟨i, h⟩ with rem := r } h
      have hmut := hmf _ ht2mem hhold hk.symm
      rw [show ({ s.threads.get ⟨i, h⟩ with rem := r } : TState).op
          = (s.threads.get ⟨i, h⟩).op from rfl, hop] at hmut
      simp [Op.isMut] at hmut
    · have hmfs : mutFree s k :=
        mutFree_back_ne s i h _ _ _ k hk hmf
      refine cleanAtKey_of_set files0 s i h _ _ _ k ?_ ?_ (hclean k hmfs)
      · exact alookup_aerase_ne s.files _ k (fun he => hk he.symm)
      · rw [hrem]
        simp

theorem Inv_step_release (files0 : List (String × List Nat)) (s : Sys)
    (i : Nat) (h : i < s.threads.length) (r : List Instr)
    (hrem : (s.threads.get ⟨i, h⟩).rem = Instr.release :: r)
    (hinv : Inv files0 s) :
    Inv files0
      ⟨s.threads.set i
          { s.threads.get ⟨i, h⟩ with rem := r, holding := false },
        s.gate.erase (s.threads.get ⟨i, h⟩).key, s.files⟩ := by
  obtain ⟨hwf, hgate, huniq, hclean⟩ := hinv
  have hmem := List.get_mem s.threads i h
  obtain ⟨hhold, hr0, hout⟩ :=
    TWf_rem_release s.files _ r (hwf _ hmem) hrem
  have hwf2 : TWf s.files
      { s.threads.get ⟨i, h⟩ with rem := r, holding := false } :=
    Or.inl ⟨rfl, Or.inr hr0⟩
  refine ⟨?_, ?_, ?_, ?_⟩
  · exact TWf_all_set_filesame s i _ hwf hwf2
  · refine gate_set s i _ _ ?_ ?_
    · intro hh2
      simp at hh2
    · intro j hj hji hh3
      have hne : (s.threads.get ⟨j, hj⟩).key
          ≠ (s.threads.get ⟨i, h⟩).key := by
        intro he
        exact hji (huniq j i hj h hh3 hhold he).symm
      exact (List.mem_erase_of_ne hne).mpr
        (hgate _ (List.get_mem s.threads j hj) hh3)
  · exact uniq_set s i h _ huniq hgate rfl (Or.inl (fun _ => hhold))
  · intro k hmf
    by_cases hk : k = (s.threads.get ⟨i, h⟩).key
    · subst hk
      rcases hout with hlook | ⟨cs, hopw, hlw⟩ | ⟨hopd, hld⟩
      · have hmfs : mutFree s (s.threads.get ⟨i, h⟩).key := by
          intro t3 ht3 hh3 hk3
          obtain ⟨⟨j, hj⟩, hget⟩ := List.mem_iff_get.mp ht3
          by_cases hji : i = j
          · subst hji
            rw [← hget]
            show (s.threads.get ⟨i, h⟩).op.isMut = false
            rw [hlook]
            rfl
          · have ht3m : t3 ∈ s.threads.set i
                { s.threads.get ⟨i, h⟩ with rem := r, holding := false } := by
              rw [← hget]
              exact mem_set_of_ne_idx s.threads i j _ hj hji
            exact hmf t3 ht3m hh3 hk3
        refine cleanAtKey_of_set files0 s i h _ _ _ _ rfl ?_
          (hclean _ hmfs)
        rw [hrem]
        simp
      · refine Or.inr ⟨{ s.threads.get ⟨i, h⟩ with
            rem := r, holding := false }, ?_, rfl, hr0, ?_⟩
        · exact mem_set_self s.threads i _ h
        · exact Or.inl ⟨cs, hopw, hlw⟩
      · refine Or.inr ⟨{ s.threads.get ⟨i, h⟩ with
            rem := r, holding := false }, ?_, rfl, hr0, ?_⟩
        · exact mem_set_self s.threads i _ h
        · exact Or.inr ⟨hopd, hld⟩
    · have hmfs : mutFree s k :=
        mutFree_back_ne s i h _ _ _ k hk hmf
      refine cleanAtKey_of_set files0 s i h _ _ _ k rfl ?_ (hclean k hmfs)
      rw [hrem]
      simp

/-- Every step preserves the invariant. -/
theorem Inv_step (files0 : List (String × List Nat)) (s s2 : Sys)
    (hstep : SysStep s s2) (hinv : Inv files0 s) : Inv files0 s2 := by
  cases hstep with
  | acquire i h r hrem hfree =>
      exact Inv_step_acquire files0 s i h r hrem hfree hinv
  | truncate i h r hrem =>
      exact Inv_step_truncate files0 s i h r hrem hinv
  | append i h x r hrem =>
      exact Inv_step_append files0 s i h x r hrem hinv
  | peek i h r hrem =>
      exact Inv_step_peek files0 s i h r hrem hinv
  | unlink i h r hrem =>
      exact Inv_step_unlink files0 s i h r hrem hinv
  | release i h r hrem =>
      exact Inv_step_release files0 s i h r hrem hinv

/-- The invariant holds in every reachable state. -/
theorem Inv_reach (files0 : List (String × List Nat)) (s0 s : Sys)
    (hinv0 : Inv files0 s0)
    (hreach : Relation.ReflTransGen SysStep s0 s) : Inv files0 s := by
  induction hreach with
  | refl => exact hinv0
  | tail hsteps hstep ih => exact Inv_step files0 _ _ hstep ih

/-- A thread holding its gate still has work to do. -/
theorem HoldCfg_rem_ne_nil (files : List (String × List Nat))
    (t : TState) (hc : HoldCfg files t) : t.rem ≠ [] := by
  obtain ⟨tk, top, trem, th⟩ := t
  intro he
  subst he
  cases top with
  | write cs =>
      rcases hc with hc | ⟨j, hj, hr, hl⟩
      · simp at hc
      · simp at hr
  | del =>
      rcases hc with hc | ⟨hr, hl⟩
      · simp at hc
      · simp at hr
  | look =>
      rcases hc with hc | hc <;> simp at hc

/-- **C8**: in every state reachable by the interleaving semantics from
an initial population of per-key operations, at most one thread holds
the gate of any given key (per-key mutual exclusion of the in-flight
disk sections of writes, removes and reads), and in every terminal state
(all operations finished) each key's file holds one clean outcome:
either its initial content or the complete atomic result of exactly one
mutating operation — never truncated or interleaved content. -/
theorem claim_C8_per_key_exclusion (ops : List (String × Op))
    (files0 : List (String × List Nat)) (s : Sys)
    (hreach : Relation.ReflTransGen SysStep (initSys ops files0) s) :
    (∀ i j (hi : i < s.threads.length) (hj : j < s.threads.length),
      (s.threads.get ⟨i, hi⟩).holding = true →
      (s.threads.get ⟨j, hj⟩).holding = true →
      (s.threads.get ⟨i, hi⟩).key = (s.threads.get ⟨j, hj⟩).key →
      i = j) ∧
    ((∀ t ∈ s.threads, t.rem = []) → ∀ k, cleanAtKey files0 s k) := by
  have hinv := Inv_reach files0 _ s (Inv_init ops files0) hreach
  obtain ⟨hwf, hgate, huniq, hclean⟩ := hinv
  refine ⟨huniq, ?_⟩
  intro hterm k
  refine hclean k ?_
  intro t3 ht3 hh3 _
  exfalso
  rcases hwf t3 ht3 with ⟨hh, _⟩ | ⟨_, hc⟩
  · rw [hh3] at hh
    exact absurd hh (by decide)
  · exact HoldCfg_rem_ne_nil s.files t3 hc (hterm t3 ht3)

/-- Concrete two-thread population for the C8 witness: a write of
content `[1, 2]` and a remove, both on key `kA`, over an empty disk. -/
def c8s0 : Sys := initSys [(kA, Op.write [1, 2]), (kA, Op.del)] []

/-- The terminal state of the schedule that runs the writer completely
and then the remover completely. -/
def c8sFinal : Sys :=
  ⟨[⟨kA, Op.write [1, 2], [], false⟩, ⟨kA, Op.del, [], false⟩], [], []⟩

theorem c8_reach : Relation.ReflTransGen SysStep c8s0 c8sFinal := by
  show Relation.ReflTransGen SysStep
    ⟨[⟨kA, Op.write [1, 2],
        [Instr.acquire, Instr.truncate, Instr.append 1, Instr.append 2,
          Instr.release], false⟩,
      ⟨kA, Op.del, [Instr.acquire, Instr.unlink, Instr.release], false⟩],
      [], []⟩ c8sFinal
  refine Relation.ReflTransGen.head
    (SysStep.acquire _ 0 (by decide)
      [Instr.truncate, Instr.append 1, Instr.append 2, Instr.release]
      rfl (by decide)) ?_
  show Relation.ReflTransGen SysStep
    ⟨[⟨kA, Op.write [1, 2],
        [Instr.truncate, Instr.append 1, Instr.append 2, Instr.release],
        true⟩,
      ⟨kA, Op.del, [Instr.acquire, Instr.unlink, Instr.release], false⟩],
      [kA], []⟩ c8sFinal
  refine Relation.ReflTransGen.head
    (SysStep.truncate _ 0 (by decide)
      [Instr.append 1, Instr.append 2, Instr.release] rfl) ?_
  show Relation.ReflTransGen SysStep
    ⟨[⟨kA, Op.write [1, 2],
        [Instr.append 1, Instr.append 2, Instr.release], true⟩,
      ⟨kA, Op.del, [Instr.acquire, Instr.unlink, Instr.release], false⟩],
      [kA], [(kA, [])]⟩ c8sFinal
  refine Relation.ReflTransGen.head
    (SysStep.append _ 0 (by decide) 1
      [Instr.append 2, Instr.release] rfl) ?_
  show Relation.ReflTransGen SysStep
    ⟨[⟨kA, Op.write [1, 2], [Instr.append 2, Instr.release], true⟩,
      ⟨kA, Op.del, [Instr.acquire, Instr.unlink, Instr.release], false⟩],
      [kA], [(kA, [1])]⟩ c8sFinal
  refine Relation.ReflTransGen.head
    (SysStep.append _ 0 (by decide) 2 [Instr.release] rfl) ?_
  show Relation.ReflTransGen SysStep
    ⟨[⟨kA, Op.write [1, 2], [Instr.release], true⟩,
      ⟨kA, Op.del, [Instr.acquire, Instr.unlink, Instr.release], false⟩],
      [kA], [(kA, [1, 2])]⟩ c8sFinal
  refine Relation.ReflTransGen.head
    (SysStep.release _ 0 (by decide) [] rfl) ?_
  show Relation.ReflTransGen SysStep
    ⟨[⟨kA, Op.write [1, 2], [], false⟩,
      ⟨kA, Op.del, [Instr.acquire, Instr.unlink, Instr.release], false⟩],
      [], [(kA, [1, 2])]⟩ c8sFinal
  refine Relation.ReflTransGen.head
    (SysStep.acquire _ 1 (by decide) [Instr.unlink, Instr.release]
      rfl (by decide)) ?_
  show Relation.ReflTransGen SysStep
    ⟨[⟨kA, Op.write [1, 2], [], false⟩,
      ⟨kA, Op.del, [Instr.unlink, Instr.release], true⟩],
      [kA], [(kA, [1, 2])]⟩ c8sFinal
  refine Relation.ReflTransGen.head
    (SysStep.unlink _ 1 (by decide) [Instr.release] rfl) ?_
  show Relation.ReflTransGen SysStep
    ⟨[⟨kA, Op.write [1, 2], [], false⟩,
      ⟨kA, Op.del, [Instr.release], true⟩],
      [kA], []⟩ c8sFinal
  refine Relation.ReflTransGen.head
    (SysStep.release _ 1 (by decide) [] rfl) ?_
  show Relation.ReflTransGen SysStep c8sFinal c8sFinal
  exact Relation.ReflTransGen.refl

/-- Witness for C8: after the concrete write/remove interleaving above,
the remover wins cleanly — the file of `kA` is the atomic outcome of the
finished remove. -/
theorem claim_C8_per_key_exclusion_witness : cleanAtKey [] c8sFinal kA :=
  (claim_C8_per_key_exclusion [(kA, Op.write [1, 2]), (kA, Op.del)] []
    c8sFinal c8_reach).2 (by decide) kA

end FSCache
